import Mathlib

/-!
Verification of the power-system analysis engine (`power_system.py`): bus
admittance assembly (`lfybus`), Newton-Raphson power flow (`lfnewton`),
loss-coefficient construction (`bloss`) and lambda-iteration economic
dispatch (`dispatch`).

The numeric field is abstracted as a linear ordered field `K`; the
transcendental primitives used by the source (`sin`, `cos`, `arctan2`,
`sqrt`, the constant `pi`) and the dense linear solver / matrix inverse
(`numpy.linalg`) are parameters of the embedding, so every theorem holds
for the idealized real-arithmetic semantics of the code, while concrete
witnesses are evaluated at `K = ℚ`.
-/

namespace PowerSystem

/-- Complex numbers as explicit pairs over a field, mirroring how the
source manipulates `numpy` complex scalars componentwise. -/
structure CC (K : Type) where
  re : K
  im : K
deriving DecidableEq, Repr

namespace CC

theorem ext_iff {K : Type} {z w : CC K} : z = w ↔ z.re = w.re ∧ z.im = w.im := by
  constructor
  · intro h
    cases h
    exact ⟨rfl, rfl⟩
  · intro h
    cases z
    cases w
    simp only [mk.injEq]
    exact ⟨h.1, h.2⟩

variable {K : Type} [Field K]

instance : Zero (CC K) := ⟨⟨0, 0⟩⟩

instance : One (CC K) := ⟨⟨1, 0⟩⟩

instance : Add (CC K) := ⟨fun z w => ⟨z.re + w.re, z.im + w.im⟩⟩

instance : Neg (CC K) := ⟨fun z => ⟨-z.re, -z.im⟩⟩

instance : Sub (CC K) := ⟨fun z w => ⟨z.re - w.re, z.im - w.im⟩⟩

instance : Mul (CC K) :=
  ⟨fun z w => ⟨z.re * w.re - z.im * w.im, z.re * w.im + z.im * w.re⟩⟩

/-- Squared modulus. -/
def normSq (z : CC K) : K := z.re * z.re + z.im * z.im

/-- Complex reciprocal, as `numpy` computes it (`conj z / |z|²`). -/
instance : Inv (CC K) := ⟨fun z => ⟨z.re / normSq z, -z.im / normSq z⟩⟩

instance : Div (CC K) := ⟨fun z w => z * w⁻¹⟩

/-- Complex conjugate. -/
def conj (z : CC K) : CC K := ⟨z.re, -z.im⟩

/-- Embedding of a real scalar. -/
def ofK (x : K) : CC K := ⟨x, 0⟩

@[simp] theorem add_re (z w : CC K) : (z + w).re = z.re + w.re := rfl

@[simp] theorem add_im (z w : CC K) : (z + w).im = z.im + w.im := rfl

@[simp] theorem sub_re (z w : CC K) : (z - w).re = z.re - w.re := rfl

@[simp] theorem sub_im (z w : CC K) : (z - w).im = z.im - w.im := rfl

@[simp] theorem neg_re (z : CC K) : (-z).re = -z.re := rfl

@[simp] theorem neg_im (z : CC K) : (-z).im = -z.im := rfl

@[simp] theorem zero_re : (0 : CC K).re = 0 := rfl

@[simp] theorem zero_im : (0 : CC K).im = 0 := rfl

@[simp] theorem conj_re (z : CC K) : (conj z).re = z.re := rfl

@[simp] theorem conj_im (z : CC K) : (conj z).im = -z.im := rfl

theorem addComm (z w : CC K) : z + w = w + z := by
  rw [ext_iff]
  exact ⟨add_comm _ _, add_comm _ _⟩

theorem addAssoc (a b c : CC K) : a + b + c = a + (b + c) := by
  rw [ext_iff]
  exact ⟨add_assoc _ _ _, add_assoc _ _ _⟩

theorem addZero (z : CC K) : z + 0 = z := by
  rw [ext_iff]
  constructor <;> simp

theorem zeroAdd (z : CC K) : 0 + z = z := by
  rw [ext_iff]
  constructor <;> simp

theorem subZero (z : CC K) : z - 0 = z := by
  rw [ext_iff]
  constructor <;> simp

theorem subSub (a b c : CC K) : a - b - c = a - (b + c) := by
  rw [ext_iff]
  constructor <;> · simp; ring

theorem zeroSub (z : CC K) : (0 : CC K) - z = -z := by
  rw [ext_iff]
  constructor <;> simp

end CC

/-- Sum of a list of `CC` values (addition is the componentwise one). -/
def sumC {K : Type} [Field K] (l : List (CC K)) : CC K :=
  l.foldr (· + ·) 0

theorem sumC_nil {K : Type} [Field K] : sumC ([] : List (CC K)) = 0 := rfl

theorem sumC_cons {K : Type} [Field K] (z : CC K) (l : List (CC K)) :
    sumC (z :: l) = z + sumC l := rfl

variable {K : Type} [LinearOrderedField K]

/-- One row of the branch (line) table: endpoints `nl`/`nr` (1-based bus
numbers, `linedata` columns 0 and 1), series impedance `R`/`X`, raw
line-charging column `Bc`, and raw tap column `a`. -/
structure Branch (K : Type) where
  nl : ℕ
  nr : ℕ
  R : K
  X : K
  Bc : K
  a : K
deriving DecidableEq, Repr

/-- Effective tap ratio: `np.where(a <= 0, 1.0, a)`. -/
def tapf (b : Branch K) : K := if b.a ≤ 0 then 1 else b.a

/-- Series branch admittance `y = 1 / (R + jX)`. -/
def yf (b : Branch K) : CC K := (⟨b.R, b.X⟩ : CC K)⁻¹

/-- Stored charging admittance `Bc = j * linedata[:,4]`. -/
def bcf (b : Branch K) : CC K := ⟨0, b.Bc⟩

/-- `self.nbus = max(np.maximum(nl, nr))`: the system bus count is the
largest bus number appearing as a branch endpoint. -/
def nbusOf (L : List (Branch K)) : ℕ :=
  L.foldr (fun b acc => max (max b.nl b.nr) acc) 0

/-- One step of the off-diagonal loop of `lfybus`:
`Ybus[nl-1, nr-1] -= y/a` followed by `Ybus[nr-1, nl-1] = Ybus[nl-1, nr-1]`. -/
def offStep (Y : ℕ → ℕ → CC K) (b : Branch K) : ℕ → ℕ → CC K :=
  fun p q =>
    if p = b.nl - 1 ∧ q = b.nr - 1 then
      Y (b.nl - 1) (b.nr - 1) - yf b / CC.ofK (tapf b)
    else if p = b.nr - 1 ∧ q = b.nl - 1 then
      Y (b.nl - 1) (b.nr - 1) - yf b / CC.ofK (tapf b)
    else Y p q

/-- The matrix after the off-diagonal loop of `lfybus`, starting from the
zero matrix. -/
def Yoff (L : List (Branch K)) : ℕ → ℕ → CC K :=
  L.foldl offStep (fun _ _ => 0)

/-- The inner loop of the diagonal pass of `lfybus` for bus number `n`
(1-based): add `y/a² + Bc` if `nl == n`, else add `y + Bc` if `nr == n`. -/
def diagAdd (L : List (Branch K)) (n : ℕ) (init : CC K) : CC K :=
  L.foldl
    (fun acc b =>
      if b.nl = n then acc + (yf b / CC.ofK (tapf b * tapf b) + bcf b)
      else if b.nr = n then acc + (yf b + bcf b)
      else acc)
    init

/-- The assembled bus admittance matrix of `lfybus`, as a total function on
0-based indices (entries outside the `nbus × nbus` block are never touched
by the source and remain zero). -/
def lfybus (L : List (Branch K)) : ℕ → ℕ → CC K :=
  fun p q =>
    if p = q then diagAdd L (p + 1) (Yoff L p p) else Yoff L p q

/-- Contribution of one branch to the off-diagonal entry `(p, q)` (0-based):
`y/a` when the branch joins the two buses in either orientation. -/
def offTerm (b : Branch K) (p q : ℕ) : CC K :=
  if (b.nl - 1 = p ∧ b.nr - 1 = q) ∨ (b.nl - 1 = q ∧ b.nr - 1 = p) then
    yf b / CC.ofK (tapf b)
  else 0

/-- The total off-diagonal contribution of the branch list to entry `(p, q)`. -/
def offSum (L : List (Branch K)) (p q : ℕ) : CC K :=
  sumC (L.map fun b => offTerm b p q)

theorem offSum_nil (p q : ℕ) : offSum ([] : List (Branch K)) p q = 0 := rfl

theorem offSum_cons (b : Branch K) (L : List (Branch K)) (p q : ℕ) :
    offSum (b :: L) p q = offTerm b p q + offSum L p q := rfl

/-- Effect of one off-diagonal step on a symmetric pair of entries. -/
theorem offStep_pair (Y : ℕ → ℕ → CC K) (b : Branch K) (p q : ℕ)
    (hpq : p ≠ q) (hsym : Y p q = Y q p) :
    offStep Y b p q = Y p q - offTerm b p q ∧
      offStep Y b q p = Y p q - offTerm b p q := by
  simp only [offStep, offTerm]
  by_cases h1 : b.nl - 1 = p ∧ b.nr - 1 = q
  · obtain ⟨ha, hb⟩ := h1
    subst ha
    subst hb
    constructor <;> simp [hpq, Ne.symm hpq]
  · by_cases h2 : b.nl - 1 = q ∧ b.nr - 1 = p
    · obtain ⟨ha, hb⟩ := h2
      subst ha
      subst hb
      constructor <;> simp [hpq, Ne.symm hpq, hsym]
    · have hp1 : ¬(p = b.nl - 1 ∧ q = b.nr - 1) := fun h => h1 ⟨h.1.symm, h.2.symm⟩
      have hp2 : ¬(p = b.nr - 1 ∧ q = b.nl - 1) := fun h => h2 ⟨h.2.symm, h.1.symm⟩
      have hq1 : ¬(q = b.nl - 1 ∧ p = b.nr - 1) := fun h => h2 ⟨h.1.symm, h.2.symm⟩
      have hq2 : ¬(q = b.nr - 1 ∧ p = b.nl - 1) := fun h => h1 ⟨h.2.symm, h.1.symm⟩
      have hor : ¬((b.nl - 1 = p ∧ b.nr - 1 = q) ∨ (b.nl - 1 = q ∧ b.nr - 1 = p)) := by
        rintro (h | h)
        · exact h1 h
        · exact h2 h
      rw [if_neg hor, if_neg hp1, if_neg hp2, if_neg hq1, if_neg hq2, CC.subZero]
      exact ⟨by trivial, hsym.symm⟩

/-- Invariant of the off-diagonal loop: a symmetric pair of off-diagonal
entries stays equal and accumulates exactly the incident branch terms. -/
theorem foldl_offStep_pair (L : List (Branch K)) (Y : ℕ → ℕ → CC K)
    (p q : ℕ) (hpq : p ≠ q) (hsym : Y p q = Y q p) :
    (L.foldl offStep Y) p q = Y p q - offSum L p q ∧
      (L.foldl offStep Y) q p = Y p q - offSum L p q := by
  induction L generalizing Y with
  | nil =>
    simp only [List.foldl_nil, offSum_nil, CC.subZero]
    exact ⟨trivial, hsym.symm⟩
  | cons b L ih =>
    have hb := offStep_pair Y b p q hpq hsym
    have := ih (offStep Y b) (hb.1.trans hb.2.symm)
    rw [hb.1] at this
    simp only [List.foldl_cons, offSum_cons]
    exact ⟨this.1.trans (CC.subSub _ _ _), this.2.trans (CC.subSub _ _ _)⟩

/-- Diagonal entries are untouched by the off-diagonal loop when no branch
is a self-loop. -/
theorem foldl_offStep_diag (L : List (Branch K)) (Y : ℕ → ℕ → CC K) (p : ℕ)
    (h : ∀ b ∈ L, b.nl - 1 ≠ b.nr - 1) :
    (L.foldl offStep Y) p p = Y p p := by
  induction L generalizing Y with
  | nil => rfl
  | cons b L ih =>
    have hb := h b (List.mem_cons_self b L)
    have hstep : offStep Y b p p = Y p p := by
      have hA : ¬(p = b.nl - 1 ∧ p = b.nr - 1) := fun hc => hb (hc.1.symm.trans hc.2)
      have hB : ¬(p = b.nr - 1 ∧ p = b.nl - 1) := fun hc => hb (hc.2.symm.trans hc.1)
      simp only [offStep]
      rw [if_neg hA, if_neg hB]
    rw [List.foldl_cons, ih (offStep Y b) (fun b hbm => h b (List.mem_cons_of_mem _ hbm)), hstep]

/-- A row (and column) whose bus is an endpoint of no branch is untouched by
the off-diagonal loop. -/
theorem foldl_offStep_row_frame (L : List (Branch K)) (Y : ℕ → ℕ → CC K) (r : ℕ)
    (h : ∀ b ∈ L, b.nl - 1 ≠ r ∧ b.nr - 1 ≠ r) (q : ℕ) :
    (L.foldl offStep Y) r q = Y r q ∧ (L.foldl offStep Y) q r = Y q r := by
  induction L generalizing Y with
  | nil => exact ⟨rfl, rfl⟩
  | cons b L ih =>
    have hb := h b (List.mem_cons_self b L)
    have h1 : offStep Y b r q = Y r q := by
      have hA : ¬(r = b.nl - 1 ∧ q = b.nr - 1) := fun hc => hb.1 hc.1.symm
      have hB : ¬(r = b.nr - 1 ∧ q = b.nl - 1) := fun hc => hb.2 hc.1.symm
      simp only [offStep]
      rw [if_neg hA, if_neg hB]
    have h2 : offStep Y b q r = Y q r := by
      have hA : ¬(q = b.nl - 1 ∧ r = b.nr - 1) := fun hc => hb.2 hc.2.symm
      have hB : ¬(q = b.nr - 1 ∧ r = b.nl - 1) := fun hc => hb.1 hc.2.symm
      simp only [offStep]
      rw [if_neg hA, if_neg hB]
    have := ih (offStep Y b) (fun b hbm => h b (List.mem_cons_of_mem _ hbm))
    rw [List.foldl_cons, this.1, this.2, h1, h2]
    exact ⟨rfl, rfl⟩

/-- The diagonal loop of `lfybus` accumulates one additive term per branch. -/
theorem diagAdd_eq_sum (L : List (Branch K)) (n : ℕ) (init : CC K) :
    diagAdd L n init =
      init + sumC (L.map fun b =>
        if b.nl = n then yf b / CC.ofK (tapf b * tapf b) + bcf b
        else if b.nr = n then yf b + bcf b
        else 0) := by
  induction L generalizing init with
  | nil => exact (CC.addZero init).symm
  | cons b L ih =>
    have hstep : diagAdd (b :: L) n init =
        diagAdd L n (init + (if b.nl = n then yf b / CC.ofK (tapf b * tapf b) + bcf b
          else if b.nr = n then yf b + bcf b else 0)) := by
      simp only [diagAdd, List.foldl_cons]
      by_cases h1 : b.nl = n
      · rw [if_pos h1, if_pos h1]
      · by_cases h2 : b.nr = n
        · rw [if_neg h1, if_pos h2, if_neg h1, if_pos h2]
        · rw [if_neg h1, if_neg h2, if_neg h1, if_neg h2, CC.addZero]
    rw [hstep, ih, List.map_cons, sumC_cons, CC.addAssoc]

/-- A branch term vanishes at a diagonal bus touched by neither endpoint. -/
theorem diagAdd_frame (L : List (Branch K)) (n : ℕ) (init : CC K)
    (h : ∀ b ∈ L, b.nl ≠ n ∧ b.nr ≠ n) :
    diagAdd L n init = init := by
  induction L generalizing init with
  | nil => rfl
  | cons b L ih =>
    have hb := h b (List.mem_cons_self b L)
    have hstep : diagAdd (b :: L) n init = diagAdd L n init := by
      simp only [diagAdd, List.foldl_cons]
      rw [if_neg hb.1, if_neg hb.2]
    rw [hstep, ih init (fun b hbm => h b (List.mem_cons_of_mem _ hbm))]

/-- Splitting an exclusive if-chain sum into the two one-sided sums. -/
theorem sumC_if_split (L : List (Branch K)) (n : ℕ)
    (f1 f2 : Branch K → CC K) (hx : ∀ b ∈ L, ¬(b.nl = n ∧ b.nr = n)) :
    sumC (L.map fun b => if b.nl = n then f1 b else if b.nr = n then f2 b else 0) =
      sumC (L.map fun b => if b.nl = n then f1 b else 0) +
        sumC (L.map fun b => if b.nr = n then f2 b else 0) := by
  induction L with
  | nil =>
    simp only [List.map_nil, sumC_nil]
    rw [CC.ext_iff]
    constructor <;> simp
  | cons b L ih =>
    have hb := hx b (List.mem_cons_self b L)
    have ihL := ih (fun b hbm => hx b (List.mem_cons_of_mem _ hbm))
    simp only [List.map_cons, sumC_cons]
    rw [ihL]
    by_cases h1 : b.nl = n
    · have h2 : b.nr ≠ n := fun h2 => hb ⟨h1, h2⟩
      rw [if_pos h1, if_pos h1, if_neg h2, CC.ext_iff]
      constructor <;> · simp; ring
    · by_cases h2 : b.nr = n
      · rw [if_neg h1, if_pos h2, if_neg h1, CC.ext_iff]
        constructor <;> · simp; ring
      · rw [if_neg h1, if_neg h2, if_neg h1, CC.ext_iff]
        constructor <;> · simp

/-- Claim C1: for every branch `k` with endpoints `(f, t)`, `lfybus`
subtracts `y_k/a_k` from `Ybus[f-1,t-1]` and `Ybus[t-1,f-1]` (so an
off-diagonal entry is minus the sum of `y/a` over the branches joining its
two buses, in either orientation, and the mirror entry equals it), adds
`y_k/a_k² + Bc_k` (the full stored `Bc`) to the from-side diagonal and
`y_k + Bc_k` to the to-side diagonal; summed over all branches this fully
determines `Ybus`. -/
theorem lfybus_assembly (L : List (Branch K))
    (hwf : ∀ b ∈ L, 1 ≤ b.nl ∧ 1 ≤ b.nr ∧ b.nl ≠ b.nr) (p q : ℕ) :
    (p ≠ q → lfybus L p q = -offSum L p q ∧ lfybus L q p = lfybus L p q) ∧
      lfybus L p p =
        sumC (L.map fun b =>
          if b.nl = p + 1 then yf b / CC.ofK (tapf b * tapf b) + bcf b else 0) +
        sumC (L.map fun b => if b.nr = p + 1 then yf b + bcf b else 0) := by
  constructor
  · intro hpq
    have hpair := foldl_offStep_pair L (fun _ _ => 0) p q hpq rfl
    have hoff : Yoff L p q = -offSum L p q := by
      rw [Yoff, hpair.1, CC.zeroSub]
    have hoff2 : Yoff L q p = -offSum L p q := by
      rw [Yoff, hpair.2, CC.zeroSub]
    constructor
    · simp only [lfybus]
      rw [if_neg hpq]
      exact hoff
    · simp only [lfybus]
      rw [if_neg hpq, if_neg (Ne.symm hpq)]
      exact hoff2.trans hoff.symm
  · have hdiag0 : Yoff L p p = 0 := by
      rw [Yoff]
      exact foldl_offStep_diag L _ p (fun b hb => by
        have := hwf b hb
        omega)
    have hx : ∀ b ∈ L, ¬(b.nl = p + 1 ∧ b.nr = p + 1) := by
      intro b hb hc
      exact (hwf b hb).2.2 (hc.1.trans hc.2.symm)
    simp only [lfybus]
    rw [if_pos trivial, hdiag0, diagAdd_eq_sum, CC.zeroAdd,
      sumC_if_split L (p + 1) _ _ hx]

/-- Claim C2: the bus admittance matrix produced by `lfybus` is symmetric,
`Ybus[i,j] = Ybus[j,i]`, for every branch table (taps different from 1 and
parallel branches included). -/
theorem lfybus_symmetric (L : List (Branch K)) (i j : ℕ) :
    lfybus L i j = lfybus L j i := by
  by_cases hij : i = j
  · rw [hij]
  · have hpair := foldl_offStep_pair L (fun _ _ => 0) i j hij rfl
    simp only [lfybus]
    rw [if_neg hij, if_neg (Ne.symm hij)]
    exact hpair.1.trans hpair.2.symm

omit [LinearOrderedField K] in
/-- Every branch endpoint is within the computed system dimension. -/
theorem endpoint_le_nbusOf (L : List (Branch K)) :
    ∀ b ∈ L, b.nl ≤ nbusOf L ∧ b.nr ≤ nbusOf L := by
  induction L with
  | nil => intro b hb; cases hb
  | cons c L ih =>
    intro b hb
    have hcons : nbusOf (c :: L) = max (max c.nl c.nr) (nbusOf L) := rfl
    rcases List.mem_cons.mp hb with hb | hb
    · subst hb
      rw [hcons]
      omega
    · have := ih b hb
      rw [hcons]
      omega

/-- One row of the bus table (`busdata`): bus number, bus kind
(`1 = Slack, 2 = PV, 0 = PQ`), then the nine numeric columns read by
`lfnewton`. -/
structure BusRow (K : Type) where
  busno : ℕ
  kbv : ℕ
  Vm : K
  delta : K
  Pd : K
  Qd : K
  Pg : K
  Qg : K
  Qmin : K
  Qmax : K
  Qsh : K
deriving DecidableEq, Repr

/-- Claim C10 (amended): `lfybus` sets the system dimension to the maximum
branch endpoint, ignoring the bus table (every branch endpoint fits inside
`nbusOf`), and a bus listed in the bus table that is incident to no branch
has an all-zero row and column in the assembled matrix whenever its index
lies inside the matrix (only a bus numbered beyond every branch endpoint
has no row at all). -/
theorem lfybus_isolated (L : List (Branch K)) (busno : ℕ)
    (hep : ∀ b ∈ L, 1 ≤ b.nl ∧ 1 ≤ b.nr) (h1 : 1 ≤ busno)
    (hni : ∀ b ∈ L, b.nl ≠ busno ∧ b.nr ≠ busno) :
    (∀ b ∈ L, b.nl ≤ nbusOf L ∧ b.nr ≤ nbusOf L) ∧
      ∀ q, lfybus L (busno - 1) q = 0 ∧ lfybus L q (busno - 1) = 0 := by
  refine ⟨endpoint_le_nbusOf L, fun q => ?_⟩
  have hidx : ∀ b ∈ L, b.nl - 1 ≠ busno - 1 ∧ b.nr - 1 ≠ busno - 1 := by
    intro b hb
    have he := hep b hb
    have hn := hni b hb
    omega
  have hframe := foldl_offStep_row_frame L (fun _ _ => 0) (busno - 1) hidx
  by_cases hq : busno - 1 = q
  · subst hq
    have hsucc : busno - 1 + 1 = busno := by omega
    have hdiag : lfybus L (busno - 1) (busno - 1) = 0 := by
      simp only [lfybus]
      rw [if_pos trivial, hsucc, diagAdd_frame L busno _ hni]
      exact (hframe (busno - 1)).1
    exact ⟨hdiag, hdiag⟩
  · constructor
    · simp only [lfybus]
      rw [if_neg hq]
      exact (hframe q).1
    · simp only [lfybus]
      rw [if_neg (fun hc => hq hc.symm)]
      exact (hframe q).2

/-- Branch table used for the C10 counterexample: a single branch between
buses 1 and 3. -/
def lineC10 : List (Branch ℚ) := [⟨1, 3, 1, 0, 0, 1⟩]

/-- Bus table used for the C10 counterexample: buses 1, 2, 3 are listed,
and bus 2 is incident to no branch. -/
def busC10 : List (BusRow ℚ) :=
  [⟨1, 1, 1, 0, 0, 0, 0, 0, 0, 0, 0⟩,
   ⟨2, 0, 1, 0, 0, 0, 0, 0, 0, 0, 0⟩,
   ⟨3, 0, 1, 0, 0, 0, 0, 0, 0, 0, 0⟩]

/-- Claim C10 counterexample: with bus table {1, 2, 3} and the single
branch (1, 3), bus 2 is listed in the bus table and incident to no branch,
yet its 0-based index `2 - 1 = 1` lies strictly inside the
`nbusOf × nbusOf` matrix, so it does have a row and column (they are zero);
the claim that such a bus has no row or column in `Ybus` is false. -/
theorem lfybus_dimension_cx :
    nbusOf lineC10 = 3 ∧ 2 ∈ busC10.map BusRow.busno ∧
      (∀ b ∈ lineC10, b.nl ≠ 2 ∧ b.nr ≠ 2) ∧ 2 - 1 < nbusOf lineC10 := by
  decide

/-- Witness for the amended claim C10 at the concrete counterexample data. -/
theorem lfybus_isolated_witness :
    (∀ b ∈ lineC10, b.nl ≠ 2 ∧ b.nr ≠ 2) ∧
      lfybus lineC10 (2 - 1) 0 = 0 ∧ lfybus lineC10 0 (2 - 1) = 0 :=
  ⟨by decide,
    ((lfybus_isolated lineC10 2 (by decide) (by decide) (by decide)).2 0).1,
    ((lfybus_isolated lineC10 2 (by decide) (by decide) (by decide)).2 0).2⟩

/-- Branch table used for the C1 witness: a tap-2 branch (1, 2), a parallel
branch in the reverse orientation (2, 1) whose raw tap 0 is rewritten to 1,
and a branch (2, 3), with nonzero charging values. -/
def lineC1 : List (Branch ℚ) := [⟨1, 2, 1, 2, 3, 2⟩, ⟨2, 1, 2, 1, 1, 0⟩, ⟨2, 3, 1, 1, 0, 1⟩]

/-- Witness for claim C1 at concrete branch data with an off-nominal tap
and a parallel pair. -/
theorem lfybus_assembly_witness :
    (∀ b ∈ lineC1, 1 ≤ b.nl ∧ 1 ≤ b.nr ∧ b.nl ≠ b.nr) ∧
      (lfybus lineC1 0 1 = -offSum lineC1 0 1 ∧ lfybus lineC1 1 0 = lfybus lineC1 0 1) ∧
      lfybus lineC1 1 1 =
        sumC (lineC1.map fun b =>
          if b.nl = 1 + 1 then yf b / CC.ofK (tapf b * tapf b) + bcf b else 0) +
        sumC (lineC1.map fun b => if b.nr = 1 + 1 then yf b + bcf b else 0) :=
  ⟨by decide, (lfybus_assembly lineC1 (by decide) 0 1).1 (by decide),
    (lfybus_assembly lineC1 (by decide) 1 1).2⟩

/-! ## Newton-Raphson power flow (`lfnewton`)

The transcendental primitives (`numpy` `sin`, `cos`, `angle` via `arctan2`,
`abs` via `sqrt`, and the constant `pi`) and the dense linear solver
`np.linalg.solve` (with its pseudo-inverse fallback) are abstracted as
parameters; everything else is transcribed statement by statement. -/

/-- The transcendental primitives the solver calls. -/
structure Ops (K : Type) where
  sin : K → K
  cos : K → K
  atan2 : K → K → K
  sqrt : K → K
  piv : K

/-- Point update of a ℕ-indexed array held as a total function. -/
def updF {α : Type} (f : ℕ → α) (i : ℕ) (v : α) : ℕ → α :=
  fun p => if p = i then v else f p

/-- Point update of a ℤ-indexed vector. -/
def updZ {α : Type} (f : ℤ → α) (i : ℤ) (v : α) : ℤ → α :=
  fun p => if p = i then v else f p

/-- Point update of a ℤ-indexed matrix. -/
def upd2Z {α : Type} (A : ℤ → ℤ → α) (i j : ℤ) (v : α) : ℤ → ℤ → α :=
  fun p q => if p = i ∧ q = j then v else A p q

/-- Sum of `f 0 + ... + f (n-1)`. -/
def sumR (n : ℕ) (f : ℕ → K) : K := ((List.range n).map f).foldr (· + ·) 0

/-- The mutable arrays and scalars of `lfnewton`, after ingest and between
iterations. -/
structure NState (K : Type) where
  kb : ℕ → ℕ
  Vm : ℕ → K
  delta : ℕ → K
  P : ℕ → K
  Q : ℕ → K
  V : ℕ → CC K
  S : ℕ → CC K
  Pd : ℕ → K
  Qd : ℕ → K
  Pg : ℕ → K
  Qg : ℕ → K
  Qmin : ℕ → K
  Qmax : ℕ → K
  Qsh : ℕ → K
  maxerror : K
  iter : ℕ
  converge : Bool

/-- Processing of one `busdata` row (lines 146-169 of the source): column
reads, then the `Vm <= 0` reset branch or the radian conversion branch. -/
def ingestStep (basemva : K) (ops : Ops K) (st : NState K) (row : BusRow K) :
    NState K :=
  let i := row.busno - 1
  let st1 := { st with
    kb := updF st.kb i row.kbv
    Vm := updF st.Vm i row.Vm
    delta := updF st.delta i row.delta
    Pd := updF st.Pd i row.Pd
    Qd := updF st.Qd i row.Qd
    Pg := updF st.Pg i row.Pg
    Qg := updF st.Qg i row.Qg
    Qmin := updF st.Qmin i row.Qmin
    Qmax := updF st.Qmax i row.Qmax
    Qsh := updF st.Qsh i row.Qsh }
  if row.Vm ≤ 0 then
    { st1 with Vm := updF st1.Vm i 1, V := updF st1.V i 1 }
  else
    let dl := ops.piv / 180 * row.delta
    { st1 with
      delta := updF st1.delta i dl
      V := updF st1.V i ⟨row.Vm * ops.cos dl, row.Vm * ops.sin dl⟩
      P := updF st1.P i ((row.Pg - row.Pd) / basemva)
      Q := updF st1.Q i ((row.Qg - row.Qd + row.Qsh) / basemva)
      S := updF st1.S i ⟨(row.Pg - row.Pd) / basemva,
        (row.Qg - row.Qd + row.Qsh) / basemva⟩ }

/-- Ingest of the whole bus table. -/
def ingest (basemva : K) (ops : Ops K) (st : NState K) (rows : List (BusRow K)) :
    NState K :=
  rows.foldl (ingestStep basemva ops) st

/-- `countKb kb v n` = number of buses `k < n` with `kb k = v` (the
cumulative bus-type counters `nss`/`ngs` and the totals `ns`/`ng`). -/
def countKb (kb : ℕ → ℕ) (v : ℕ) (n : ℕ) : ℕ :=
  ((List.range n).filter (fun k => kb k = v)).length

/-- Fixed data of one `lfnewton` run: configuration, network, bus-type
counts and the abstracted linear solver. -/
structure BodyCtx (K : Type) where
  basemva : K
  accuracy : K
  maxiter : ℕ
  ops : Ops K
  branches : List (Branch K)
  Yb : ℕ → ℕ → CC K
  nbus : ℕ
  ns : ℕ
  ng : ℕ
  nss : ℕ → ℕ
  ngs : ℕ → ℕ
  m : ℤ
  linSolve : (ℤ → ℤ → K) → (ℤ → K) → ℤ → K

/-- `Ym[n,l] = abs(Ybus[n,l])`. -/
def Ymc (c : BodyCtx K) (n l : ℕ) : K :=
  c.ops.sqrt ((c.Yb n l).re * (c.Yb n l).re + (c.Yb n l).im * (c.Yb n l).im)

/-- `t[n,l] = angle(Ybus[n,l])`. -/
def tAc (c : BodyCtx K) (n l : ℕ) : K :=
  c.ops.atan2 (c.Yb n l).im (c.Yb n l).re

/-- P-row / delta-column index `nn = n - nss[n]`. -/
def nnIdx (c : BodyCtx K) (n : ℕ) : ℤ := (n : ℤ) - c.nss n

/-- Q-row / Vm-column index `lm = nbus + n - ngs[n] - nss[n] - ns`. -/
def lmIdx (c : BodyCtx K) (n : ℕ) : ℤ :=
  (c.nbus : ℤ) + n - c.ngs n - c.nss n - c.ns

/-- Accumulator of the per-bus branch sweep: the four running Jacobian
terms and the Jacobian matrix being filled. -/
structure JAcc (K : Type) where
  J11 : K
  J22 : K
  J33 : K
  J44 : K
  A : ℤ → ℤ → K

/-- One branch of the inner sweep (source lines 218-252): accumulate
`J11/J22/J33/J44` for bus `n` and write the off-diagonal Jacobian blocks
for the neighbour `l`. -/
def innerStep (c : BodyCtx K) (n : ℕ) (dl : ℕ → K) (kb : ℕ → ℕ) (nn lm : ℤ)
    (vm : ℕ → K) (acc : JAcc K) (b : Branch K) : JAcc K :=
  if b.nl = n + 1 ∨ b.nr = n + 1 then
    let l := if b.nr = n + 1 then b.nl - 1 else b.nr - 1
    let sv := c.ops.sin (tAc c n l - dl n + dl l)
    let cv := c.ops.cos (tAc c n l - dl n + dl l)
    let J11 := acc.J11 + vm n * vm l * Ymc c n l * sv
    let J33 := acc.J33 + vm n * vm l * Ymc c n l * cv
    let J22 := if kb n ≠ 1 then acc.J22 + vm l * Ymc c n l * cv else acc.J22
    let J44 := if kb n ≠ 1 then acc.J44 + vm l * Ymc c n l * sv else acc.J44
    let A :=
      if kb n ≠ 1 ∧ kb l ≠ 1 then
        let lk := lmIdx c l
        let ll := nnIdx c l
        let A1 := if 0 ≤ nn ∧ 0 ≤ ll ∧ nn < c.m ∧ ll < c.m then
            upd2Z acc.A nn ll (-(vm n * vm l * Ymc c n l * sv)) else acc.A
        let A2 := if kb l = 0 ∧ 0 ≤ nn ∧ 0 ≤ lk ∧ nn < c.m ∧ lk < c.m then
            upd2Z A1 nn lk (vm n * Ymc c n l * cv) else A1
        let A3 := if kb n = 0 ∧ 0 ≤ lm ∧ 0 ≤ ll ∧ lm < c.m ∧ ll < c.m then
            upd2Z A2 lm ll (-(vm n * vm l * Ymc c n l * cv)) else A2
        if kb n = 0 ∧ kb l = 0 ∧ 0 ≤ lm ∧ 0 ≤ lk ∧ lm < c.m ∧ lk < c.m then
            upd2Z A3 lm lk (-(vm n * Ymc c n l * sv)) else A3
      else acc.A
    ⟨J11, J22, J33, J44, A⟩
  else acc

/-- Mutable state threaded through the per-bus sweep of one iteration. -/
structure SweepSt (K : Type) where
  A : ℤ → ℤ → K
  DC : ℤ → K
  Vm : ℕ → K
  P : ℕ → K
  Q : ℕ → K

/-- Handling of one bus `n` in an iteration (source lines 207-291): the
inner branch sweep, the self-injections `Pk`/`Qk`, the slack/PV power
overwrites, the PV reactive-limit nudge on iterations 3..7, and the
diagonal Jacobian and mismatch writes. -/
def busStep (c : BodyCtx K) (dl : ℕ → K) (kb : ℕ → ℕ)
    (Qd Qsh Qmin Qmax : ℕ → K) (iterN : ℕ) (s : SweepSt K) (n : ℕ) :
    SweepSt K :=
  let nn := nnIdx c n
  let lm := lmIdx c n
  let acc := c.branches.foldl (innerStep c n dl kb nn lm s.Vm)
    ⟨0, 0, 0, 0, s.A⟩
  let Pk := s.Vm n * s.Vm n * Ymc c n n * c.ops.cos (tAc c n n) + acc.J33
  let Qk := -(s.Vm n * s.Vm n) * Ymc c n n * c.ops.sin (tAc c n n) - acc.J11
  let P1 := if kb n = 1 then updF s.P n Pk else s.P
  let Q1 := if kb n = 1 ∨ kb n = 2 then updF s.Q n Qk else s.Q
  let Vm1 :=
    if kb n = 2 ∧ Qmax n ≠ 0 ∧ iterN ≤ 7 ∧ 2 < iterN then
      let Qgc := Q1 n * c.basemva + Qd n - Qsh n
      if Qgc < Qmin n then updF s.Vm n (s.Vm n + 1 / 100)
      else if Qmax n < Qgc then updF s.Vm n (s.Vm n - 1 / 100)
      else s.Vm
    else s.Vm
  let A1 := if kb n ≠ 1 ∧ 0 ≤ nn ∧ nn < c.m then upd2Z acc.A nn nn acc.J11
    else acc.A
  let DC1 := if kb n ≠ 1 ∧ 0 ≤ nn ∧ nn < c.m then updZ s.DC nn (P1 n - Pk)
    else s.DC
  let A2 := if kb n = 0 ∧ 0 ≤ lm ∧ 0 ≤ nn ∧ lm < c.m ∧ nn < c.m then
      upd2Z (upd2Z (upd2Z A1 nn lm
          (2 * Vm1 n * Ymc c n n * c.ops.cos (tAc c n n) + acc.J22))
        lm nn acc.J33)
        lm lm (-(2 * Vm1 n * Ymc c n n * c.ops.sin (tAc c n n)) - acc.J44)
    else A1
  let DC2 := if kb n = 0 ∧ 0 ≤ lm ∧ 0 ≤ nn ∧ lm < c.m ∧ nn < c.m then
      updZ DC1 lm (Q1 n - Qk)
    else DC1
  ⟨A2, DC2, Vm1, P1, Q1⟩

/-- Application of the correction vector to bus `n` (source lines
301-309): `delta[n] += DX[nn]` for non-slack buses, `Vm[n] += DX[lm]` for
PQ buses, each guarded by the index-range checks. -/
def corrStep (c : BodyCtx K) (kb : ℕ → ℕ) (DX : ℤ → K)
    (vd : (ℕ → K) × (ℕ → K)) (n : ℕ) : (ℕ → K) × (ℕ → K) :=
  let nn := nnIdx c n
  let lm := lmIdx c n
  let d1 := if kb n ≠ 1 ∧ 0 ≤ nn ∧ nn < c.m then
      updF vd.1 n (vd.1 n + DX nn) else vd.1
  let v1 := if kb n = 0 ∧ 0 ≤ lm ∧ lm < c.m then
      updF vd.2 n (vd.2 n + DX lm) else vd.2
  (d1, v1)

/-- One Newton iteration (source lines 196-317): sweep all buses, solve
the correction system, apply the corrections, recompute `maxerror` and the
convergence flag. Returns `none` when the mismatch vector is empty
(`m <= 0`), where `np.max` on a zero-size array raises `ValueError`. -/
def bodyN (c : BodyCtx K) (st : NState K) : Option (NState K) :=
  let iterN := st.iter + 1
  let sw := (List.range c.nbus).foldl
    (busStep c st.delta st.kb st.Qd st.Qsh st.Qmin st.Qmax iterN)
    ⟨fun _ _ => 0, fun _ => 0, st.Vm, st.P, st.Q⟩
  let DX := c.linSolve sw.A sw.DC
  let vd := (List.range c.nbus).foldl (corrStep c st.kb DX) (st.delta, sw.Vm)
  if 0 < c.m then
    let me := ((List.range c.m.toNat).map (fun i => |sw.DC (i : ℤ)|)).foldr max 0
    some { st with
      iter := iterN
      Vm := vd.2
      delta := vd.1
      P := sw.P
      Q := sw.Q
      maxerror := me
      converge := if iterN = c.maxiter ∧ c.accuracy < me then false
        else st.converge }
  else none

/-- The `while maxerror >= accuracy and iter <= maxiter` loop, by fuel
(`maxiter + 2` suffices since every iteration increments `iter`). -/
def loopN (c : BodyCtx K) : ℕ → NState K → Option (NState K)
  | 0, _ => none
  | fuel + 1, st =>
    if c.accuracy ≤ st.maxerror ∧ st.iter ≤ c.maxiter then
      (bodyN c st).bind (loopN c fuel)
    else some st

/-- Accumulator of the post-loop generator update (source lines 330-347). -/
structure PostAcc (K : Type) where
  Pg : ℕ → K
  Qg : ℕ → K
  S : ℕ → CC K
  Pgg : List K
  Qgg : List K

/-- Post-loop handling of bus `n`: slack buses get `Pg`/`Qg` from the
computed injections, PV buses get `Qg`, and both append to `Pgg`/`Qgg`. -/
def postStep (c : BodyCtx K) (st : NState K) (acc : PostAcc K) (n : ℕ) :
    PostAcc K :=
  if st.kb n = 1 then
    let pgn := st.P n * c.basemva + st.Pd n
    let qgn := st.Q n * c.basemva + st.Qd n - st.Qsh n
    ⟨updF acc.Pg n pgn, updF acc.Qg n qgn,
      updF acc.S n (⟨st.P n, st.Q n⟩ : CC K),
      acc.Pgg ++ [pgn], acc.Qgg ++ [qgn]⟩
  else if st.kb n = 2 then
    let qgn := st.Q n * c.basemva + st.Qd n - st.Qsh n
    ⟨acc.Pg, updF acc.Qg n qgn,
      updF acc.S n (⟨st.P n, st.Q n⟩ : CC K),
      acc.Pgg ++ [acc.Pg n], acc.Qgg ++ [qgn]⟩
  else acc

/-- The in-place re-sync `busdata[:,2] = Vm; busdata[:,3] = deltad`
(positional: row `k` receives `Vm[k]` and `deltad[k]`). -/
def resync (VmA dd : ℕ → K) : ℕ → List (BusRow K) → List (BusRow K)
  | _, [] => []
  | k, row :: rest =>
    { row with Vm := VmA k, delta := dd k } :: resync VmA dd (k + 1) rest

/-- The data `lfnewton` leaves behind: the final iteration state plus the
post-processed quantities and the re-synced `busdata`. -/
structure NResult (K : Type) where
  st : NState K
  VA : ℕ → CC K
  deltad : ℕ → K
  Pg : ℕ → K
  Qg : ℕ → K
  S : ℕ → CC K
  yload : ℕ → CC K
  Pgg : List K
  Qgg : List K
  Pgt : K
  Qgt : K
  Pdt : K
  Qdt : K
  Qsht : K
  busdata : List (BusRow K)
  tech : String

/-- Post-loop processing (source lines 319-360): status text, rectangular
voltages, degree angles, generator powers, `yload`, system totals and the
in-place `busdata` re-sync. -/
def postN (c : BodyCtx K) (rows : List (BusRow K)) (st : NState K) :
    NResult K :=
  let tech := if st.converge = false then "ITERATIVE SOLUTION DID NOT CONVERGE"
    else "Power Flow Solution by Newton-Raphson Method"
  let VA := fun n =>
    (⟨st.Vm n * c.ops.cos (st.delta n), st.Vm n * c.ops.sin (st.delta n)⟩ : CC K)
  let deltad := fun n => 180 / c.ops.piv * st.delta n
  let acc := (List.range c.nbus).foldl (postStep c st) ⟨st.Pg, st.Qg, st.S, [], []⟩
  let yload := fun n =>
    (⟨st.Pd n, -st.Qd n + st.Qsh n⟩ : CC K) /
      CC.ofK (c.basemva * (st.Vm n * st.Vm n))
  let busdata := resync st.Vm deltad 0 rows
  ⟨st, VA, deltad, acc.Pg, acc.Qg, acc.S, yload, acc.Pgg, acc.Qgg,
    sumR c.nbus acc.Pg, sumR c.nbus acc.Qg, sumR c.nbus st.Pd,
    sumR c.nbus st.Qd, sumR c.nbus st.Qsh, busdata, tech⟩

/-- The context `lfnewton` runs in, built from the ingested bus kinds: the
solver reads `nbus`, `nl`, `nr` and `Ybus` as `lfybus` left them. -/
def mkCtx (basemva accuracy : K) (maxiter : ℕ) (ops : Ops K)
    (linSolve : (ℤ → ℤ → K) → (ℤ → K) → ℤ → K)
    (branches : List (Branch K)) (kb : ℕ → ℕ) : BodyCtx K :=
  let nbus := nbusOf branches
  let ns := countKb kb 1 nbus
  let ng := countKb kb 2 nbus
  ⟨basemva, accuracy, maxiter, ops, branches, lfybus branches, nbus, ns, ng,
    fun i => countKb kb 1 (i + 1), fun i => countKb kb 2 (i + 1),
    2 * (nbus : ℤ) - (ng : ℤ) - 2 * (ns : ℤ), linSolve⟩

/-- The zeroed pre-ingest state (source lines 124-143, `maxerror = 1`,
`iter = 0`, `converge = 1`). -/
def initNState : NState K :=
  ⟨fun _ => 0, fun _ => 0, fun _ => 0, fun _ => 0, fun _ => 0, fun _ => 0,
    fun _ => 0, fun _ => 0, fun _ => 0, fun _ => 0, fun _ => 0, fun _ => 0,
    fun _ => 0, fun _ => 0, 1, 0, true⟩

/-- Power flow solution by the Newton-Raphson method (`lfnewton`), after a
prior `lfybus` call on `branches`. Returns `none` when the run raises
(`np.max` over an empty mismatch vector). -/
def lfnewton (basemva accuracy : K) (maxiter : ℕ) (ops : Ops K)
    (linSolve : (ℤ → ℤ → K) → (ℤ → K) → ℤ → K)
    (branches : List (Branch K)) (rows : List (BusRow K)) :
    Option (NResult K) :=
  let st1 := ingest basemva ops initNState rows
  let c := mkCtx basemva accuracy maxiter ops linSolve branches st1.kb
  (loopN c (maxiter + 2) st1).map (postN c rows)

/-- Default bus row used with `List.getD`. -/
def row0 : BusRow K := ⟨0, 0, 0, 0, 0, 0, 0, 0, 0, 0, 0⟩

theorem updF_self {α : Type} (f : ℕ → α) (i : ℕ) (v : α) : updF f i v i = v :=
  if_pos rfl

theorem updF_ne {α : Type} (f : ℕ → α) (i : ℕ) (v : α) (p : ℕ) (h : p ≠ i) :
    updF f i v p = f p :=
  if_neg h

omit [LinearOrderedField K] in
theorem mem_getD {α : Type} (l : List α) (a : α) (d : α) (h : a ∈ l) :
    ∃ k, k < l.length ∧ l.getD k d = a := by
  induction l with
  | nil => cases h
  | cons b l ih =>
    rcases List.mem_cons.mp h with h | h
    · exact ⟨0, by simp, by simp [h.symm]⟩
    · obtain ⟨k, hk, hget⟩ := ih h
      exact ⟨k + 1, by simpa using hk, by simpa using hget⟩

/-- A row whose bus index differs from `s` leaves the arrays at `s` alone. -/
theorem ingestStep_ne (basemva : K) (ops : Ops K) (st : NState K)
    (row : BusRow K) (s : ℕ) (h : s ≠ row.busno - 1) :
    (ingestStep basemva ops st row).kb s = st.kb s ∧
      (ingestStep basemva ops st row).Vm s = st.Vm s ∧
      (ingestStep basemva ops st row).delta s = st.delta s ∧
      (ingestStep basemva ops st row).V s = st.V s := by
  by_cases hv : row.Vm ≤ 0 <;>
    · refine ⟨?_, ?_, ?_, ?_⟩ <;> simp [ingestStep, hv, updF, h]

/-- Processing a row writes the expected values at its own bus index:
`kb`, and either the `Vm <= 0` reset (which leaves `delta` at the raw
ingested value) or the kept magnitude with the radian conversion. -/
theorem ingestStep_self (basemva : K) (ops : Ops K) (st : NState K)
    (row : BusRow K) :
    (ingestStep basemva ops st row).kb (row.busno - 1) = row.kbv ∧
      (row.Vm ≤ 0 →
        (ingestStep basemva ops st row).Vm (row.busno - 1) = 1 ∧
          (ingestStep basemva ops st row).delta (row.busno - 1) = row.delta ∧
          (ingestStep basemva ops st row).V (row.busno - 1) = 1) ∧
      (¬row.Vm ≤ 0 →
        (ingestStep basemva ops st row).Vm (row.busno - 1) = row.Vm ∧
          (ingestStep basemva ops st row).delta (row.busno - 1) =
            ops.piv / 180 * row.delta) := by
  by_cases hv : row.Vm ≤ 0 <;>
    · refine ⟨?_, fun h => ?_, fun h => ?_⟩ <;>
        first
          | (exact absurd hv h)
          | (exact absurd h hv)
          | simp [ingestStep, hv, updF]

/-- Ingesting rows that all target other bus indices leaves index `s`
alone. -/
theorem ingest_ne (basemva : K) (ops : Ops K) (rows : List (BusRow K))
    (st : NState K) (s : ℕ) (h : ∀ r ∈ rows, s ≠ r.busno - 1) :
    (ingest basemva ops st rows).kb s = st.kb s ∧
      (ingest basemva ops st rows).Vm s = st.Vm s ∧
      (ingest basemva ops st rows).delta s = st.delta s ∧
      (ingest basemva ops st rows).V s = st.V s := by
  induction rows generalizing st with
  | nil => exact ⟨rfl, rfl, rfl, rfl⟩
  | cons r rows ih =>
    have hstep := ingestStep_ne basemva ops st r s (h r (List.mem_cons_self r rows))
    have hrest := ih (ingestStep basemva ops st r)
      (fun r hr => h r (List.mem_cons_of_mem _ hr))
    exact ⟨hrest.1.trans hstep.1, hrest.2.1.trans hstep.2.1,
      hrest.2.2.1.trans hstep.2.2.1, hrest.2.2.2.trans hstep.2.2.2⟩

/-- Ingest of an in-order bus table (row `k` carries bus number `j+k+1`)
writes each row's values at its own index and nothing later disturbs them. -/
theorem ingest_ordered (basemva : K) (ops : Ops K) (rows : List (BusRow K)) :
    ∀ (j : ℕ) (st : NState K),
      (∀ k, k < rows.length → (rows.getD k row0).busno = j + k + 1) →
      ∀ s, s < rows.length →
        (ingest basemva ops st rows).kb (j + s) = (rows.getD s row0).kbv ∧
          ((rows.getD s row0).Vm ≤ 0 →
            (ingest basemva ops st rows).Vm (j + s) = 1 ∧
              (ingest basemva ops st rows).delta (j + s) =
                (rows.getD s row0).delta ∧
              (ingest basemva ops st rows).V (j + s) = 1) ∧
          (¬(rows.getD s row0).Vm ≤ 0 →
            (ingest basemva ops st rows).Vm (j + s) = (rows.getD s row0).Vm ∧
              (ingest basemva ops st rows).delta (j + s) =
                ops.piv / 180 * (rows.getD s row0).delta) := by
  induction rows with
  | nil => intro j st _ s hs; cases hs
  | cons r rows ih =>
    intro j st hord s hs
    have hr0 : r.busno = j + 1 := by
      have := hord 0 (by simp)
      simpa using this
    have hunf : ingest basemva ops st (r :: rows) =
        ingest basemva ops (ingestStep basemva ops st r) rows := rfl
    cases s with
    | zero =>
      simp only [List.getD_cons_zero, Nat.add_zero]
      have hrest : ∀ rr ∈ rows, j ≠ rr.busno - 1 := by
        intro rr hrr
        obtain ⟨k, hk, hget⟩ := mem_getD rows rr row0 hrr
        have := hord (k + 1) (by simpa using hk)
        simp only [List.getD_cons_succ] at this
        rw [hget] at this
        omega
      have hframe := ingest_ne basemva ops rows (ingestStep basemva ops st r) j hrest
      have hself := ingestStep_self basemva ops st r
      have hidx : r.busno - 1 = j := by omega
      rw [hidx] at hself
      rw [hunf]
      refine ⟨hframe.1.trans hself.1, fun hv => ?_, fun hv => ?_⟩
      · exact ⟨hframe.2.1.trans ((hself.2.1 hv).1),
          hframe.2.2.1.trans ((hself.2.1 hv).2.1),
          hframe.2.2.2.trans ((hself.2.1 hv).2.2)⟩
      · exact ⟨hframe.2.1.trans ((hself.2.2 hv).1),
          hframe.2.2.1.trans ((hself.2.2 hv).2)⟩
    | succ t =>
      have hord' : ∀ k, k < rows.length → (rows.getD k row0).busno = (j + 1) + k + 1 := by
        intro k hk
        have := hord (k + 1) (by simpa using hk)
        simp only [List.getD_cons_succ] at this
        omega
      have := ih (j + 1) (ingestStep basemva ops st r) hord' t (by simpa using hs)
      have heq : j + 1 + t = j + (t + 1) := by omega
      rw [heq] at this
      simpa only [hunf, List.getD_cons_succ] using this

/-- The per-bus sweep never writes the voltage magnitude of a slack bus:
the only `Vm` write in the sweep is the PV-bus reactive nudge. -/
theorem busStep_Vm_slack (c : BodyCtx K) (dl : ℕ → K) (kb : ℕ → ℕ)
    (Qd Qsh Qmin Qmax : ℕ → K) (iterN : ℕ) (sst : SweepSt K) (n s : ℕ)
    (hkb : kb s = 1) :
    (busStep c dl kb Qd Qsh Qmin Qmax iterN sst n).Vm s = sst.Vm s := by
  simp only [busStep]
  by_cases hg : kb n = 2 ∧ Qmax n ≠ 0 ∧ iterN ≤ 7 ∧ 2 < iterN
  · have hns : s ≠ n := by
      intro he
      rw [he] at hkb
      obtain ⟨h2, -⟩ := hg
      omega
    rw [if_pos hg]
    split_ifs <;> simp [updF, hns]
  · rw [if_neg hg]

theorem foldl_busStep_Vm_slack (c : BodyCtx K) (dl : ℕ → K) (kb : ℕ → ℕ)
    (Qd Qsh Qmin Qmax : ℕ → K) (iterN : ℕ) (L : List ℕ) (s : ℕ)
    (hkb : kb s = 1) :
    ∀ init : SweepSt K,
      (L.foldl (busStep c dl kb Qd Qsh Qmin Qmax iterN) init).Vm s =
        init.Vm s := by
  induction L with
  | nil => intro init; rfl
  | cons n L ih =>
    intro init
    rw [List.foldl_cons, ih _]
    exact busStep_Vm_slack c dl kb Qd Qsh Qmin Qmax iterN init n s hkb

/-- The correction step never updates a slack bus's angle or magnitude. -/
theorem corrStep_slack (c : BodyCtx K) (kb : ℕ → ℕ) (DX : ℤ → K)
    (vd : (ℕ → K) × (ℕ → K)) (n s : ℕ) (hkb : kb s = 1) :
    (corrStep c kb DX vd n).1 s = vd.1 s ∧
      (corrStep c kb DX vd n).2 s = vd.2 s := by
  simp only [corrStep]
  constructor
  · split_ifs with h
    · obtain ⟨h1, -⟩ := h
      have hns : s ≠ n := by
        intro he
        rw [he] at hkb
        exact h1 hkb
      simp [updF, hns]
    · rfl
  · split_ifs with h
    · obtain ⟨h1, -⟩ := h
      have hns : s ≠ n := by
        intro he
        rw [he] at hkb
        omega
      simp [updF, hns]
    · rfl

theorem foldl_corrStep_slack (c : BodyCtx K) (kb : ℕ → ℕ) (DX : ℤ → K)
    (L : List ℕ) (s : ℕ) (hkb : kb s = 1) :
    ∀ vd : (ℕ → K) × (ℕ → K),
      (L.foldl (corrStep c kb DX) vd).1 s = vd.1 s ∧
        (L.foldl (corrStep c kb DX) vd).2 s = vd.2 s := by
  induction L with
  | nil => intro vd; exact ⟨rfl, rfl⟩
  | cons n L ih =>
    intro vd
    have hstep := corrStep_slack c kb DX vd n s hkb
    have := ih (corrStep c kb DX vd n)
    rw [List.foldl_cons]
    exact ⟨this.1.trans hstep.1, this.2.trans hstep.2⟩

/-- One Newton iteration leaves a slack bus's `Vm` and `delta` unchanged
and never touches the bus-kind array. -/
theorem bodyN_slack (c : BodyCtx K) (st st' : NState K) (s : ℕ)
    (hkb : st.kb s = 1) (h : bodyN c st = some st') :
    st'.Vm s = st.Vm s ∧ st'.delta s = st.delta s ∧ st'.kb = st.kb := by
  simp only [bodyN] at h
  by_cases hm : 0 < c.m
  · rw [if_pos hm, Option.some.injEq] at h
    subst h
    refine ⟨?_, ?_, rfl⟩
    · exact (foldl_corrStep_slack c st.kb _ _ s hkb _).2.trans
        (foldl_busStep_Vm_slack c st.delta st.kb st.Qd st.Qsh st.Qmin st.Qmax
          (st.iter + 1) (List.range c.nbus) s hkb _)
    · exact (foldl_corrStep_slack c st.kb _ _ s hkb _).1
  · rw [if_neg hm] at h
    cases h

/-- The whole Newton loop leaves a slack bus's `Vm` and `delta` unchanged. -/
theorem loopN_slack (c : BodyCtx K) (s : ℕ) :
    ∀ (fuel : ℕ) (st st' : NState K), st.kb s = 1 →
      loopN c fuel st = some st' →
        st'.Vm s = st.Vm s ∧ st'.delta s = st.delta s ∧ st'.kb = st.kb := by
  intro fuel
  induction fuel with
  | zero => intro st st' _ h; cases h
  | succ fuel ih =>
    intro st st' hkb h
    simp only [loopN] at h
    by_cases hc : c.accuracy ≤ st.maxerror ∧ st.iter ≤ c.maxiter
    · rw [if_pos hc] at h
      cases hb : bodyN c st with
      | none => rw [hb] at h; cases h
      | some st1 =>
        rw [hb] at h
        simp only [Option.some_bind] at h
        have h1 := bodyN_slack c st st1 s hkb hb
        have h2 := ih st1 st' (by rw [h1.2.2]; exact hkb) h
        exact ⟨h2.1.trans h1.1, h2.2.1.trans h1.2.1, h2.2.2.trans h1.2.2⟩
    · rw [if_neg hc, Option.some.injEq] at h
      subst h
      exact ⟨rfl, rfl, rfl⟩

/-- Entry `s` of the re-synced bus table. -/
theorem resync_getD (VmA dd : ℕ → K) :
    ∀ (rows : List (BusRow K)) (k s : ℕ), s < rows.length →
      (resync VmA dd k rows).getD s row0 =
        { rows.getD s row0 with Vm := VmA (k + s), delta := dd (k + s) } := by
  intro rows
  induction rows with
  | nil => intro k s hs; cases hs
  | cons r rows ih =>
    intro k s hs
    cases s with
    | zero => simp [resync]
    | succ t =>
      have := ih (k + 1) t (by simpa using hs)
      have heq : k + 1 + t = k + (t + 1) := by omega
      rw [heq] at this
      simpa [resync] using this

/-- Claim C3: a bus flagged Slack (`kb = 1`) with pre-set `Vm > 0` and
angle `delta` keeps exactly those values in the re-synced `busdata` after
`lfnewton`: ingest converts the angle to radians, no sweep nudge or
correction step ever writes a slack bus's `delta` or `Vm`, and the final
degree conversion restores the pre-set angle exactly. Stated for an
in-order bus table (`busdata[k,0] = k+1`, which the positional re-sync
assumes) and a nonzero `pi` constant. -/
theorem lfnewton_slack_fixed (basemva accuracy : K) (maxiter : ℕ)
    (ops : Ops K) (linSolve : (ℤ → ℤ → K) → (ℤ → K) → ℤ → K)
    (branches : List (Branch K)) (rows : List (BusRow K))
    (hord : ∀ k, k < rows.length → (rows.getD k row0).busno = k + 1)
    (s : ℕ) (hs : s < rows.length)
    (hkb : (rows.getD s row0).kbv = 1)
    (hvm : 0 < (rows.getD s row0).Vm)
    (hpi : ops.piv ≠ 0) (res : NResult K)
    (hres : lfnewton basemva accuracy maxiter ops linSolve branches rows =
      some res) :
    (res.busdata.getD s row0).Vm = (rows.getD s row0).Vm ∧
      (res.busdata.getD s row0).delta = (rows.getD s row0).delta := by
  have hres' : (loopN (mkCtx basemva accuracy maxiter ops linSolve branches
        (ingest basemva ops initNState rows).kb) (maxiter + 2)
        (ingest basemva ops initNState rows)).map
      (postN (mkCtx basemva accuracy maxiter ops linSolve branches
        (ingest basemva ops initNState rows).kb) rows) = some res := hres
  obtain ⟨stF, hloop, hpost⟩ := Option.map_eq_some'.mp hres'
  have hing := ingest_ordered basemva ops rows 0 initNState
    (fun k hk => by simpa using hord k hk) s hs
  simp only [Nat.zero_add] at hing
  have hkb1 : (ingest basemva ops initNState rows).kb s = 1 := by
    rw [hing.1, hkb]
  have hnv : ¬(rows.getD s row0).Vm ≤ 0 := not_le.mpr hvm
  have hvmS := (hing.2.2 hnv).1
  have hdlS := (hing.2.2 hnv).2
  have hLS := loopN_slack _ s (maxiter + 2) _ stF hkb1 hloop
  have hbd : res.busdata = resync stF.Vm
      (fun n => 180 / ops.piv * stF.delta n) 0 rows := by
    rw [← hpost]
    rfl
  rw [hbd, resync_getD _ _ rows 0 s hs]
  simp only [Nat.zero_add]
  constructor
  · show stF.Vm s = (rows.getD s row0).Vm
    rw [hLS.1, hvmS]
  · show 180 / ops.piv * stF.delta s = (rows.getD s row0).delta
    rw [hLS.2.1, hdlS]
    field_simp
    ring

/-- Bool-level characterization of the convergence flag update. -/
theorem convergeFlag_iff (iterN : ℕ) (me : K) (cv : Bool) (maxiter : ℕ)
    (acc : K) :
    ((if iterN = maxiter ∧ acc < me then false else cv) = false ↔
      (cv = false ∨ (iterN = maxiter ∧ acc < me))) := by
  by_cases hcond : iterN = maxiter ∧ acc < me
  · simp [hcond]
  · cases cv <;> simp [hcond]

/-- Claim C4 (amended): the non-convergence flag is set exactly when some
iteration ends with `iter = maxiter` and `maxerror` strictly greater than
`accuracy` (the in-loop test is strict, while the loop guard is `>=`, so a
mismatch exactly equal to `accuracy` at the cap still reports the
converged text after one further iteration beyond the cap); the status
text reports the flag, and the last state is returned either way. -/
theorem lfnewton_convergence_flag :
    (∀ (basemva accuracy : K) (maxiter : ℕ) (ops : Ops K)
        (linSolve : (ℤ → ℤ → K) → (ℤ → K) → ℤ → K)
        (branches : List (Branch K)) (rows : List (BusRow K))
        (res : NResult K),
        lfnewton basemva accuracy maxiter ops linSolve branches rows =
            some res →
          ((res.tech = "ITERATIVE SOLUTION DID NOT CONVERGE" ↔
              res.st.converge = false) ∧
            (res.tech = "Power Flow Solution by Newton-Raphson Method" ↔
              res.st.converge = true))) ∧
      ∀ (c : BodyCtx K) (st st' : NState K), bodyN c st = some st' →
        (st'.converge = false ↔
          st.converge = false ∨
            (st'.iter = c.maxiter ∧ c.accuracy < st'.maxerror)) := by
  constructor
  · intro basemva accuracy maxiter ops linSolve branches rows res hres
    have hres' : (loopN (mkCtx basemva accuracy maxiter ops linSolve branches
          (ingest basemva ops initNState rows).kb) (maxiter + 2)
          (ingest basemva ops initNState rows)).map
        (postN (mkCtx basemva accuracy maxiter ops linSolve branches
          (ingest basemva ops initNState rows).kb) rows) = some res := hres
    obtain ⟨stF, hloop, hpost⟩ := Option.map_eq_some'.mp hres'
    have htech : res.tech =
        (if stF.converge = false then "ITERATIVE SOLUTION DID NOT CONVERGE"
          else "Power Flow Solution by Newton-Raphson Method") := by
      rw [← hpost]
      rfl
    have hconv : res.st.converge = stF.converge := by
      rw [← hpost]
      rfl
    cases hcv : stF.converge with
    | false =>
      rw [if_pos hcv] at htech
      rw [hcv] at hconv
      rw [htech, hconv]
      exact ⟨by simp, by decide⟩
    | true =>
      rw [if_neg (by rw [hcv]; exact fun h => Bool.noConfusion h)] at htech
      rw [hcv] at hconv
      rw [htech, hconv]
      exact ⟨by decide, by simp⟩
  · intro c st st' h
    simp only [bodyN] at h
    by_cases hm : 0 < c.m
    · rw [if_pos hm, Option.some.injEq] at h
      subst h
      exact convergeFlag_iff _ _ _ _ _
    · rw [if_neg hm] at h
      cases h

/-- Zero-valued transcendental primitives with `pi = 1`, used to evaluate
the control flow of the embedding at rational inputs. -/
def opsQ0 : Ops ℚ := ⟨fun _ => 0, fun _ => 0, fun _ _ => 0, fun _ => 0, 1⟩

/-- The zero solver (the exact solution of the all-zero Jacobian systems
arising with `opsQ0`, matching the pseudo-inverse fallback on them). -/
def solveZero : (ℤ → ℤ → ℚ) → (ℤ → ℚ) → ℤ → ℚ := fun _ _ => fun _ => 0

/-- Two-bus branch table: one branch (1, 2). -/
def lineTwo : List (Branch ℚ) := [⟨1, 2, 1, 0, 0, 1⟩]

/-- Slack bus (Vm = 1.05, delta = 5 deg) plus a PQ bus whose scheduled
mismatch is exactly the default accuracy 0.001. -/
def busTwoEq : List (BusRow ℚ) :=
  [⟨1, 1, 21/20, 5, 0, 0, 0, 0, 0, 0, 0⟩,
   ⟨2, 0, 1, 0, 1/10, 0, 0, 0, 0, 0, 0⟩]

/-- Slack bus plus a PQ bus whose scheduled mismatch 0.002 stays strictly
above the accuracy. -/
def busTwoAbove : List (BusRow ℚ) :=
  [⟨1, 1, 21/20, 5, 0, 0, 0, 0, 0, 0, 0⟩,
   ⟨2, 0, 1, 0, 1/5, 0, 0, 0, 0, 0, 0⟩]

set_option maxRecDepth 10000

/-- Claim C4 counterexample: with `maxiter = 1` and a run whose maximum
mismatch equals `accuracy` exactly on every iteration, the iteration cap
is exceeded (final `iter = 2 > maxiter`) while `maxerror = accuracy` is
still at-or-above the tolerance, yet the run reports the converged status
text (`converge` stays true): the in-loop test `maxerror > accuracy` is
strict, so the claim's "at or above" condition does not mark the run as
not converged. -/
theorem lfnewton_convergence_cx :
    (lfnewton (100 : ℚ) (1/1000) 1 opsQ0 solveZero lineTwo busTwoEq).map
        (fun r => (r.tech, r.st.maxerror, r.st.iter, r.st.converge)) =
      some ("Power Flow Solution by Newton-Raphson Method", 1/1000, 2, true) ∧
      ¬((1 : ℚ)/1000 < 1/1000) := by
  with_unfolding_all decide

/-- Witness for the amended claim C4: a genuinely non-converging run is
reported with the non-convergence text. -/
theorem lfnewton_convergence_flag_witness :
    (lfnewton (100 : ℚ) (1/1000) 1 opsQ0 solveZero lineTwo busTwoAbove).map
        (fun r => (r.tech, r.st.converge)) =
      some ("ITERATIVE SOLUTION DID NOT CONVERGE", false) := by
  cases hE : lfnewton (100 : ℚ) (1/1000) 1 opsQ0 solveZero lineTwo busTwoAbove with
  | none =>
    have hS : (lfnewton (100 : ℚ) (1/1000) 1 opsQ0 solveZero lineTwo
        busTwoAbove).isSome = true := by with_unfolding_all decide
    rw [hE] at hS
    simp at hS
  | some r =>
    have hiff := (lfnewton_convergence_flag.1 100 (1/1000) 1 opsQ0 solveZero
      lineTwo busTwoAbove r hE).1
    have hcv : r.st.converge = false := by
      have hmap : (lfnewton (100 : ℚ) (1/1000) 1 opsQ0 solveZero lineTwo
          busTwoAbove).map (fun r => r.st.converge) = some false := by with_unfolding_all decide
      rw [hE] at hmap
      simpa using hmap
    simp only [Option.map_some']
    rw [hiff.mpr hcv, hcv]

/-- Witness for claim C3 at the concrete two-bus system: the slack bus row
of the re-synced `busdata` still carries `Vm = 21/20` and `delta = 5`. -/
theorem lfnewton_slack_fixed_witness :
    (lfnewton (100 : ℚ) (1/1000) 1 opsQ0 solveZero lineTwo busTwoEq).map
        (fun r => ((r.busdata.getD 0 row0).Vm, (r.busdata.getD 0 row0).delta)) =
      some (21/20, 5) := by
  cases hE : lfnewton (100 : ℚ) (1/1000) 1 opsQ0 solveZero lineTwo busTwoEq with
  | none =>
    have hS : (lfnewton (100 : ℚ) (1/1000) 1 opsQ0 solveZero lineTwo
        busTwoEq).isSome = true := by with_unfolding_all decide
    rw [hE] at hS
    simp at hS
  | some r =>
    have hC := lfnewton_slack_fixed 100 (1/1000) 1 opsQ0 solveZero lineTwo
      busTwoEq (by with_unfolding_all decide) 0 (by with_unfolding_all decide) (by with_unfolding_all decide) (by with_unfolding_all decide) (by with_unfolding_all decide)
      r hE
    simp only [Option.map_some']
    rw [hC.1, hC.2]
    with_unfolding_all rfl

/-- Bus table with a single bus whose ingested `Vm = 0` and `delta = 30`. -/
def busVmZero : List (BusRow ℚ) := [⟨1, 0, 0, 30, 0, 0, 0, 0, 0, 0, 0⟩]

/-- Claim C5 counterexample: for a bus ingested with `Vm = 0 <= 0` and
`delta = 30`, ingest (inside `lfnewton`) resets `Vm` to 1.0 but leaves the
stored `delta` at its raw value 30 — it is not reset to 0. -/
theorem ingest_reset_cx :
    (ingest (100 : ℚ) opsQ0 initNState busVmZero).Vm 0 = 1 ∧
      (ingest (100 : ℚ) opsQ0 initNState busVmZero).delta 0 = 30 ∧
      (30 : ℚ) ≠ 0 := by
  with_unfolding_all decide

/-- Claim C5 (amended): for every bus whose ingested `Vm <= 0`, ingest
inside `lfnewton` resets that bus's `Vm` to 1.0 and its phasor `V` to
`1 + 0j`, but leaves the stored angle `delta` at its raw ingested
(degrees) value: it is neither reset to 0 nor converted to radians. -/
theorem ingest_vm_reset (basemva : K) (ops : Ops K) (rows : List (BusRow K))
    (hord : ∀ k, k < rows.length → (rows.getD k row0).busno = k + 1)
    (s : ℕ) (hs : s < rows.length) (hv : (rows.getD s row0).Vm ≤ 0) :
    (ingest basemva ops initNState rows).Vm s = 1 ∧
      (ingest basemva ops initNState rows).V s = 1 ∧
      (ingest basemva ops initNState rows).delta s =
        (rows.getD s row0).delta := by
  have h := ingest_ordered basemva ops rows 0 initNState
    (fun k hk => by simpa using hord k hk) s hs
  simp only [Nat.zero_add] at h
  have h2 := h.2.1 hv
  exact ⟨h2.1, h2.2.2, h2.2.1⟩

/-- Witness for the amended claim C5 at the concrete one-bus table. -/
theorem ingest_vm_reset_witness :
    ((busVmZero.getD 0 row0).Vm ≤ (0 : ℚ)) ∧
      (ingest (100 : ℚ) opsQ0 initNState busVmZero).V 0 = 1 ∧
      (ingest (100 : ℚ) opsQ0 initNState busVmZero).delta 0 =
        (busVmZero.getD 0 row0).delta :=
  ⟨by with_unfolding_all decide,
    (ingest_vm_reset 100 opsQ0 busVmZero (by with_unfolding_all decide) 0 (by with_unfolding_all decide)
      (by with_unfolding_all decide)).2.1,
    (ingest_vm_reset 100 opsQ0 busVmZero (by with_unfolding_all decide) 0 (by with_unfolding_all decide)
      (by with_unfolding_all decide)).2.2⟩

/-- Single-bus network: bus 1 is slack, with one self-loop branch so the
branch table is nonempty and `nbus = 1`. -/
def lineSelf : List (Branch ℚ) := [⟨1, 1, 0, 1, 0, 1⟩]

/-- Bus table for the single slack bus. -/
def busSingle : List (BusRow ℚ) := [⟨1, 1, 21/20, 0, 0, 0, 0, 0, 0, 0, 0⟩]

/-- Claim C9: for a network consisting of a single slack bus, the unknown
count is `m = 2*1 - 0 - 2 = 0`, the iteration loop is still entered
(`maxerror = 1 >= accuracy` and `iter = 0 <= maxiter`), and the run
crashes (`np.max` over the empty mismatch vector raises `ValueError`,
modeled as `none`): the solver does not terminate with 0 iterations and
returns nothing. -/
theorem lfnewton_single_bus_crash :
    (lfnewton (100 : ℚ) (1/1000) 10 opsQ0 solveZero lineSelf
        busSingle).isNone = true ∧
      (mkCtx (100 : ℚ) (1/1000) 10 opsQ0 solveZero lineSelf
        (ingest 100 opsQ0 initNState busSingle).kb).m = 0 ∧
      (1 : ℚ)/1000 ≤ (ingest (100 : ℚ) opsQ0 initNState busSingle).maxerror ∧
      (ingest (100 : ℚ) opsQ0 initNState busSingle).iter ≤ 10 := by
  with_unfolding_all decide

/-! ## Economic dispatch (`dispatch`)

The lambda-iteration dispatcher, with `np.linalg.solve` (and its
pseudo-inverse fallback) abstracted as a parameter. The `mwlimits = None`
default (`Pmax = +inf`) is not modeled; all claims concern calls with an
explicit limits table. -/

/-- State of the lambda iteration: the schedule, the active-set weights,
the incremental cost, the last residual and loss, and the iteration
counter. -/
structure DSt (K : Type) where
  Pgg : ℕ → K
  wgt : ℕ → K
  lam : K
  DelP : K
  PL : K
  iterp : ℕ

/-- Fixed data of one dispatch call. -/
structure DCtx (K : Type) where
  ngg : ℕ
  basemva : K
  Bu : ℕ → ℕ → K
  B0 : ℕ → K
  B00u : K
  alpha : ℕ → K
  beta : ℕ → K
  gama : ℕ → K
  Pmin : ℕ → K
  Pmax : ℕ → K
  Pdt : K
  solveE : (ℕ → ℕ → K) → (ℕ → K) → ℕ → K

/-- Dot product of length `n`. -/
def dotR (n : ℕ) (f g : ℕ → K) : K := sumR n (fun i => f i * g i)

/-- `PL = Pgg . (Bu Pgg) + B0 . Pgg + B00u` (source lines 670 and 685). -/
def lossPL (c : DCtx K) (Pgg : ℕ → K) : K :=
  dotR c.ngg Pgg (fun k => dotR c.ngg (c.Bu k) Pgg) + dotR c.ngg c.B0 Pgg +
    c.B00u

/-- `np.sign`. -/
def sgn (x : K) : K := if 0 < x then 1 else if x < 0 then -1 else 0

/-- `np.max(beta)` over `ngg` entries. -/
def maxBeta (n : ℕ) (beta : ℕ → K) : K :=
  ((List.range n).map beta).foldl max (beta 0)

/-- The linear solve of one iteration (source lines 639-667): form `E` and
`Dx`, solve, update the active entries of `Pgg`, and compute the residual
`DelP = Pdt + PL - sum Pgg`. -/
def stage1 (c : DCtx K) (s : DSt K) : (ℕ → K) × K :=
  let E : ℕ → ℕ → K := fun k mm =>
    if s.wgt k = 1 then
      (if mm = k then c.gama k / s.lam + c.Bu k k else c.Bu k mm)
    else (if mm = k then 1 else 0)
  let Dx : ℕ → K := fun k =>
    if s.wgt k = 1 then 1/2 * (1 - c.B0 k - c.beta k / s.lam) else 0
  let PP := c.solveE E Dx
  let Pgg1 := (List.range c.ngg).foldl
    (fun P k => if s.wgt k = 1 then updF P k (PP k) else P) s.Pgg
  (Pgg1, c.Pdt + lossPL c Pgg1 - sumR c.ngg Pgg1)

/-- The limit check for one generator (source lines 676-682): clamp to
`Pmax`/`Pmin` and deactivate, but only when `|DelP| <= 0.001`. -/
def clampStep (Pmin Pmax : ℕ → K) (DelP : K) (pw : (ℕ → K) × (ℕ → K))
    (k : ℕ) : (ℕ → K) × (ℕ → K) :=
  if Pmax k < pw.1 k ∧ |DelP| ≤ 1/1000 then
    (updF pw.1 k (Pmax k), updF pw.2 k 0)
  else if pw.1 k < Pmin k ∧ |DelP| ≤ 1/1000 then
    (updF pw.1 k (Pmin k), updF pw.2 k 0)
  else pw

/-- The gradient used for the lambda update (source lines 689-702). -/
def gradFold (c : DCtx K) (lam : K) (Pgg2 wgt2 : ℕ → K) : ℕ → K :=
  (List.range c.ngg).foldl
    (fun g k =>
      if wgt2 k = 1 then
        let BP := sumR c.ngg (fun mm => if mm ≠ k then c.Bu k mm * Pgg2 mm else 0)
        let denom := 2 * (c.gama k + lam * c.Bu k k) ^ 2
        if 1/10000000000 < denom then
          updF g k ((c.gama k * (1 - c.B0 k) + c.Bu k k * c.beta k -
            2 * c.gama k * BP) / denom)
        else updF g k 0
      else g)
    (fun _ => 0)

/-- The lambda update (source lines 704-718): damped Newton step when the
gradient is usable, otherwise a 5 percent multiplicative nudge. -/
def lamUpd (lam DelP2 sumgrad : K) : K :=
  if 1/1000000 < |sumgrad| then
    let dl := DelP2 / sumgrad
    let dl2 := if 1/2 * lam < |dl| then 1/2 * lam * sgn dl else dl
    lam + dl2
  else if 0 < DelP2 then lam * (21/20) else lam * (19/20)

/-- One outer iteration of the dispatcher (source lines 636-718). -/
def bodyD (c : DCtx K) (s : DSt K) : DSt K :=
  let p1 := stage1 c s
  let pw := (List.range c.ngg).foldl (clampStep c.Pmin c.Pmax p1.2)
    (p1.1, s.wgt)
  let DelP2 := c.Pdt + lossPL c pw.1 - sumR c.ngg pw.1
  let grad := gradFold c s.lam pw.1 pw.2
  let sumgrad := dotR c.ngg pw.2 grad
  ⟨pw.1, pw.2, lamUpd s.lam DelP2 sumgrad, DelP2, lossPL c pw.1,
    s.iterp + 1⟩

/-- The `while abs(DelP) >= 0.0001 and iterp < 200` loop, by fuel (201
suffices since `iterp` increments every iteration). -/
def loopD (c : DCtx K) : ℕ → DSt K → DSt K
  | 0, s => s
  | fuel + 1, s =>
    if 1/10000 ≤ |s.DelP| ∧ s.iterp < 200 then loopD c fuel (bodyD c s)
    else s

/-- The persistent object state that `dispatch` reads and writes. -/
structure PState (K : Type) where
  basemva : K
  Pdt : K
  busdata : List (BusRow K)
  kb : ℕ → ℕ
  nbusN : ℕ
  Pg : ℕ → K
  B : Option (List (List K))
  B0 : Option (List K)
  B00 : Option K
  lam : Option K
  Pgg : Option (List K)

/-- What a feasible dispatch call returns (`Pgg`, `lambda`, `PL`), plus
the loop's final active-set weights, residual and iteration count. -/
structure DRes (K : Type) where
  Pgg : List K
  lam : K
  PL : K
  wgt : List K
  DelP : K
  iterp : ℕ
deriving DecidableEq, Repr

/-- `np.zeros((n, n))` as a list of rows. -/
def zerosM (n : ℕ) : List (List K) :=
  (List.range n).map (fun _ => (List.range n).map (fun _ => (0 : K)))

/-- `np.zeros(n)`. -/
def zerosV (n : ℕ) : List K := (List.range n).map (fun _ => (0 : K))

/-- Matrix entry with zero default. -/
def getM (M : List (List K)) (k mm : ℕ) : K := (M.getD k []).getD mm 0

/-- Vector entry with zero default. -/
def getV (v : List K) (k : ℕ) : K := v.getD k 0

/-- The post-loop `busdata` generator update (source lines 729-737): walk
the rows in order, and give each generator-class bus the next entry of the
new schedule. -/
def busdataUpd (kb : ℕ → ℕ) (nbusN : ℕ) (PggL : List K) :
    ℕ → List (BusRow K) → List (BusRow K)
  | _, [] => []
  | ng, row :: rest =>
    if row.busno - 1 < nbusN ∧ kb (row.busno - 1) ≠ 0 then
      if ng < PggL.length then
        { row with Pg := PggL.getD ng 0 } ::
          busdataUpd kb nbusN PggL (ng + 1) rest
      else row :: busdataUpd kb nbusN PggL ng rest
    else row :: busdataUpd kb nbusN PggL ng rest

/-- The fixed data of a feasible dispatch call, from the (defaulted)
persistent coefficients and the call arguments: scaled `Bu = B/basemva`,
`B00u = basemva*B00`, the cost columns and the limit columns. -/
def dispatchCtx (ps : PState K) (Pdt : K) (cost : List (K × K × K))
    (mwlimits : List (K × K)) (solveE : (ℕ → ℕ → K) → (ℕ → K) → ℕ → K) :
    DCtx K :=
  ⟨cost.length, ps.basemva,
    fun k mm => getM (ps.B.getD (zerosM cost.length)) k mm / ps.basemva,
    fun k => getV (ps.B0.getD (zerosV cost.length)) k,
    ps.basemva * ps.B00.getD 0,
    fun k => (cost.getD k (0, 0, 0)).1,
    fun k => (cost.getD k (0, 0, 0)).2.1,
    fun k => (cost.getD k (0, 0, 0)).2.2,
    fun k => (mwlimits.getD k (0, 0)).1,
    fun k => (mwlimits.getD k (0, 0)).2, Pdt, solveE⟩

/-- The final lambda-iteration state of a feasible call: warm-started
`lambda` (or `max(beta)` on first use), `Pgg = zeros`, `wgt = ones`,
`DelP = 10`, up to 200 iterations. -/
def dispatchFinal (ps : PState K) (Pdt : K) (cost : List (K × K × K))
    (mwlimits : List (K × K)) (solveE : (ℕ → ℕ → K) → (ℕ → K) → ℕ → K) :
    DSt K :=
  loopD (dispatchCtx ps Pdt cost mwlimits solveE) 201
    ⟨fun _ => 0, fun _ => 1,
      ps.lam.getD (maxBeta cost.length (fun k => (cost.getD k (0, 0, 0)).2.1)),
      10, 0, 0⟩

/-- The tuple a feasible dispatch call returns. -/
def dispatchRes (ps : PState K) (Pdt : K) (cost : List (K × K × K))
    (mwlimits : List (K × K)) (solveE : (ℕ → ℕ → K) → (ℕ → K) → ℕ → K) :
    DRes K :=
  ⟨(List.range cost.length).map (dispatchFinal ps Pdt cost mwlimits solveE).Pgg,
    (dispatchFinal ps Pdt cost mwlimits solveE).lam,
    (dispatchFinal ps Pdt cost mwlimits solveE).PL,
    (List.range cost.length).map (dispatchFinal ps Pdt cost mwlimits solveE).wgt,
    (dispatchFinal ps Pdt cost mwlimits solveE).DelP,
    (dispatchFinal ps Pdt cost mwlimits solveE).iterp⟩

/-- Economic dispatch (`dispatch(Pdt, cost, mwlimits)`) over the persistent
state: defaulting of `Pdt` and of `B`, `B0`, `B00` (mutating them when
unset), the feasibility gates (returning `none` with no further mutation),
then the warm-started lambda iteration and the persistent updates. -/
def dispatch (ps : PState K) (PdtArg : Option K) (cost : List (K × K × K))
    (mwlimits : List (K × K)) (solveE : (ℕ → ℕ → K) → (ℕ → K) → ℕ → K) :
    PState K × Option (DRes K) :=
  let Pdt := PdtArg.getD ps.Pdt
  let ngg := cost.length
  let ps1 := { ps with
    B := some (ps.B.getD (zerosM ngg))
    B0 := some (ps.B0.getD (zerosV ngg))
    B00 := some (ps.B00.getD 0) }
  if sumR ngg (fun k => (mwlimits.getD k (0, 0)).2) < Pdt then (ps1, none)
  else if Pdt < sumR ngg (fun k => (mwlimits.getD k (0, 0)).1) then (ps1, none)
  else
    let sF := dispatchFinal ps Pdt cost mwlimits solveE
    let PggL := (List.range ngg).map sF.Pgg
    let ps3 := { ps1 with
      lam := some sF.lam
      Pgg := some PggL
      busdata := busdataUpd ps.kb ps.nbusN PggL 0 ps.busdata }
    (ps3, some (dispatchRes ps Pdt cost mwlimits solveE))

omit [LinearOrderedField K] in
theorem getD_map_range {α : Type} (f : ℕ → α) (d : α) :
    ∀ (n k : ℕ), k < n → ((List.range n).map f).getD k d = f k := by
  intro n k hk
  rw [List.getD_eq_getElem?_getD, List.getElem?_map, List.getElem?_range hk]
  rfl

/-- A clamp step for another generator leaves entry `k` alone. -/
theorem clampStep_ne (Pmin Pmax : ℕ → K) (DelP : K)
    (pw : (ℕ → K) × (ℕ → K)) (j k : ℕ) (h : k ≠ j) :
    (clampStep Pmin Pmax DelP pw j).1 k = pw.1 k ∧
      (clampStep Pmin Pmax DelP pw j).2 k = pw.2 k := by
  simp only [clampStep]
  split_ifs <;> simp [updF, h]

/-- If generator `k` is still active after its own clamp step, it was not
clamped: its weight was 1, its power is unchanged, and neither limit
violation fired. -/
theorem clampStep_self (Pmin Pmax : ℕ → K) (DelP : K)
    (pw : (ℕ → K) × (ℕ → K)) (k : ℕ)
    (h : (clampStep Pmin Pmax DelP pw k).2 k = 1) :
    (clampStep Pmin Pmax DelP pw k).1 k = pw.1 k ∧ pw.2 k = 1 ∧
      ¬(Pmax k < pw.1 k ∧ |DelP| ≤ 1/1000) ∧
      ¬(pw.1 k < Pmin k ∧ |DelP| ≤ 1/1000) := by
  simp only [clampStep] at h ⊢
  split_ifs at h ⊢ with h1 h2
  · have h' : updF pw.2 k 0 k = 1 := h
    rw [updF_self] at h'
    exact absurd h' (by norm_num)
  · have h' : updF pw.2 k 0 k = 1 := h
    rw [updF_self] at h'
    exact absurd h' (by norm_num)
  · exact ⟨rfl, h, h1, h2⟩

/-- A generator still active after the whole clamp pass kept its solved
power; and if the pass ran with `|DelP| <= 0.001` and processed it, that
power is within its limits. -/
theorem clampFold_active (Pmin Pmax : ℕ → K) (DelP : K) (k : ℕ) :
    ∀ (L : List ℕ) (pw : (ℕ → K) × (ℕ → K)),
      (L.foldl (clampStep Pmin Pmax DelP) pw).2 k = 1 →
      ((L.foldl (clampStep Pmin Pmax DelP) pw).1 k = pw.1 k ∧ pw.2 k = 1) ∧
        (k ∈ L → |DelP| ≤ 1/1000 →
          Pmin k ≤ (L.foldl (clampStep Pmin Pmax DelP) pw).1 k ∧
            (L.foldl (clampStep Pmin Pmax DelP) pw).1 k ≤ Pmax k) := by
  intro L
  induction L with
  | nil =>
    intro pw h
    exact ⟨⟨rfl, h⟩, fun hm => absurd hm (List.not_mem_nil k)⟩
  | cons j L ih =>
    intro pw h
    rw [List.foldl_cons] at h ⊢
    have IH := ih (clampStep Pmin Pmax DelP pw j) h
    by_cases hjk : k = j
    · subst hjk
      have hB := clampStep_self Pmin Pmax DelP pw k IH.1.2
      refine ⟨⟨IH.1.1.trans hB.1, hB.2.1⟩, fun _ hd => ?_⟩
      rw [IH.1.1, hB.1]
      constructor
      · by_contra hlt
        exact hB.2.2.2 ⟨not_le.mp hlt, hd⟩
      · by_contra hlt
        exact hB.2.2.1 ⟨not_le.mp hlt, hd⟩
    · have hA := clampStep_ne Pmin Pmax DelP pw j k hjk
      refine ⟨⟨IH.1.1.trans hA.1, ?_⟩, fun hm hd => ?_⟩
      · rw [← hA.2]
        exact IH.1.2
      · refine IH.2 ?_ hd
        rcases List.mem_cons.mp hm with h' | h'
        · exact absurd h' hjk
        · exact h'

/-- With `|DelP| > 0.001` the clamp pass is the identity. -/
theorem clampStep_noop (Pmin Pmax : ℕ → K) (DelP : K)
    (pw : (ℕ → K) × (ℕ → K)) (j : ℕ) (hg : ¬(|DelP| ≤ 1/1000)) :
    clampStep Pmin Pmax DelP pw j = pw := by
  simp only [clampStep]
  rw [if_neg (fun hc => hg hc.2), if_neg (fun hc => hg hc.2)]

theorem clampFold_noop (Pmin Pmax : ℕ → K) (DelP : K)
    (hg : ¬(|DelP| ≤ 1/1000)) :
    ∀ (L : List ℕ) (pw : (ℕ → K) × (ℕ → K)),
      L.foldl (clampStep Pmin Pmax DelP) pw = pw := by
  intro L
  induction L with
  | nil => intro pw; rfl
  | cons j L ih =>
    intro pw
    rw [List.foldl_cons, clampStep_noop Pmin Pmax DelP pw j hg, ih]

/-- After one dispatcher iteration that ends near balance
(`|DelP| <= 0.001`), every still-active generator is within its limits:
either the clamp pass ran under its guard and deactivated every violator,
or no clamping happened and the residual was the same strictly larger one. -/
theorem bodyD_limits (c : DCtx K) (s : DSt K) (k : ℕ) (hk : k < c.ngg)
    (hw : (bodyD c s).wgt k = 1) (hd : |(bodyD c s).DelP| ≤ 1/1000) :
    c.Pmin k ≤ (bodyD c s).Pgg k ∧ (bodyD c s).Pgg k ≤ c.Pmax k := by
  have hPgg : (bodyD c s).Pgg =
      ((List.range c.ngg).foldl (clampStep c.Pmin c.Pmax (stage1 c s).2)
        ((stage1 c s).1, s.wgt)).1 := rfl
  have hwgt : (bodyD c s).wgt =
      ((List.range c.ngg).foldl (clampStep c.Pmin c.Pmax (stage1 c s).2)
        ((stage1 c s).1, s.wgt)).2 := rfl
  by_cases hg : |(stage1 c s).2| ≤ 1/1000
  · have hact := clampFold_active c.Pmin c.Pmax (stage1 c s).2 k
      (List.range c.ngg) ((stage1 c s).1, s.wgt) (by rw [← hwgt]; exact hw)
    rw [hPgg]
    exact hact.2 (List.mem_range.mpr hk) hg
  · exfalso
    apply hg
    have hnoop := clampFold_noop c.Pmin c.Pmax (stage1 c s).2 hg
      (List.range c.ngg) ((stage1 c s).1, s.wgt)
    have hDelP : (bodyD c s).DelP =
        c.Pdt + lossPL c ((List.range c.ngg).foldl
          (clampStep c.Pmin c.Pmax (stage1 c s).2)
          ((stage1 c s).1, s.wgt)).1 -
        sumR c.ngg ((List.range c.ngg).foldl
          (clampStep c.Pmin c.Pmax (stage1 c s).2)
          ((stage1 c s).1, s.wgt)).1 := rfl
    rw [hnoop] at hDelP
    have hDelP2 : (bodyD c s).DelP =
        c.Pdt + lossPL c (stage1 c s).1 - sumR c.ngg (stage1 c s).1 := hDelP
    have hsp : (stage1 c s).2 =
        c.Pdt + lossPL c (stage1 c s).1 - sumR c.ngg (stage1 c s).1 := rfl
    rw [hsp, ← hDelP2]
    exact hd

/-- The loop result is the initial state or the output of a final body
call. -/
theorem loopD_last (c : DCtx K) :
    ∀ (fuel : ℕ) (s : DSt K),
      loopD c fuel s = s ∨ ∃ s1, loopD c fuel s = bodyD c s1 := by
  intro fuel
  induction fuel with
  | zero => intro s; exact Or.inl rfl
  | succ fuel ih =>
    intro s
    simp only [loopD]
    by_cases hcond : 1/10000 ≤ |s.DelP| ∧ s.iterp < 200
    · rw [if_pos hcond]
      rcases ih (bodyD c s) with h | ⟨s1, h⟩
      · exact Or.inr ⟨s, h⟩
      · exact Or.inr ⟨s1, h⟩
    · rw [if_neg hcond]
      exact Or.inl rfl

/-- Claim C7 (amended): for every feasible dispatch call whose lambda loop
exits with `|DelP| < 1e-4` (converged), every generator still active
(`w = 1`) in the returned schedule satisfies `Pmin <= Pgg <= Pmax`. (A
feasible call that terminates by exhausting the 200-iteration cap can
leave an active generator outside its limits; see the counterexample.) -/
theorem dispatch_limits (ps : PState K) (PdtArg : Option K)
    (cost : List (K × K × K)) (mwlimits : List (K × K))
    (solveE : (ℕ → ℕ → K) → (ℕ → K) → ℕ → K) (res : DRes K)
    (hres : (dispatch ps PdtArg cost mwlimits solveE).2 = some res)
    (hconv : |res.DelP| < 1/10000) (k : ℕ) (hk : k < cost.length)
    (hw : res.wgt.getD k 0 = 1) :
    (mwlimits.getD k (0, 0)).1 ≤ res.Pgg.getD k 0 ∧
      res.Pgg.getD k 0 ≤ (mwlimits.getD k (0, 0)).2 := by
  by_cases h1 : sumR cost.length (fun k => (mwlimits.getD k (0, 0)).2) <
      PdtArg.getD ps.Pdt
  · have hnone : (dispatch ps PdtArg cost mwlimits solveE).2 = none := by
      simp only [dispatch]
      rw [if_pos h1]
    rw [hnone] at hres
    cases hres
  · by_cases h2 : PdtArg.getD ps.Pdt <
        sumR cost.length (fun k => (mwlimits.getD k (0, 0)).1)
    · have hnone : (dispatch ps PdtArg cost mwlimits solveE).2 = none := by
        simp only [dispatch]
        rw [if_neg h1, if_pos h2]
      rw [hnone] at hres
      cases hres
    · have hsome : (dispatch ps PdtArg cost mwlimits solveE).2 =
          some (dispatchRes ps (PdtArg.getD ps.Pdt) cost mwlimits solveE) := by
        simp only [dispatch]
        rw [if_neg h1, if_neg h2]
      rw [hsome, Option.some.injEq] at hres
      subst hres
      have hwgt : (dispatchRes ps (PdtArg.getD ps.Pdt) cost mwlimits
            solveE).wgt.getD k 0 =
          (dispatchFinal ps (PdtArg.getD ps.Pdt) cost mwlimits solveE).wgt k :=
        getD_map_range _ _ cost.length k hk
      have hPgg : (dispatchRes ps (PdtArg.getD ps.Pdt) cost mwlimits
            solveE).Pgg.getD k 0 =
          (dispatchFinal ps (PdtArg.getD ps.Pdt) cost mwlimits solveE).Pgg k :=
        getD_map_range _ _ cost.length k hk
      have hDelP : (dispatchRes ps (PdtArg.getD ps.Pdt) cost mwlimits
            solveE).DelP =
          (dispatchFinal ps (PdtArg.getD ps.Pdt) cost mwlimits solveE).DelP :=
        rfl
      rw [hwgt] at hw
      rw [hDelP] at hconv
      rw [hPgg]
      rcases loopD_last (dispatchCtx ps (PdtArg.getD ps.Pdt) cost mwlimits
          solveE) 201
          ⟨fun _ => 0, fun _ => 1,
            ps.lam.getD (maxBeta cost.length
              (fun k => (cost.getD k (0, 0, 0)).2.1)), 10, 0, 0⟩ with
        hfin | ⟨s1, hfin⟩
      · exfalso
        have h10 : (dispatchFinal ps (PdtArg.getD ps.Pdt) cost mwlimits
            solveE).DelP = 10 := by
          rw [dispatchFinal, hfin]
        rw [h10] at hconv
        have habs : |(10 : K)| = 10 := abs_of_pos (by norm_num)
        rw [habs] at hconv
        have : ¬((10 : K) < 1/10000) := by norm_num
        exact this hconv
      · have hfin' : dispatchFinal ps (PdtArg.getD ps.Pdt) cost mwlimits
            solveE = bodyD (dispatchCtx ps (PdtArg.getD ps.Pdt) cost mwlimits
              solveE) s1 := by
          rw [dispatchFinal, hfin]
        rw [hfin'] at hw hconv ⊢
        have hdle : |(bodyD (dispatchCtx ps (PdtArg.getD ps.Pdt) cost mwlimits
            solveE) s1).DelP| ≤ 1/1000 := by
          refine le_trans (le_of_lt hconv) ?_
          norm_num
        exact bodyD_limits _ s1 k hk hw hdle

/-- Claim C6 (amended): an infeasible call (total demand above the sum of
`Pmax` or below the sum of `Pmin`) returns no schedule, performs no lambda
iteration, and leaves `lambda`, `Pgg`, `busdata`, `Pg` (and the ingested
totals and bus kinds) unchanged; however the coefficient defaulting runs
*before* the gate, so `B`, `B0`, `B00` end up `some` of their previous
values when set, and initialized to zeros when previously unset. -/
theorem dispatch_infeasible (ps : PState K) (PdtArg : Option K)
    (cost : List (K × K × K)) (mwlimits : List (K × K))
    (solveE : (ℕ → ℕ → K) → (ℕ → K) → ℕ → K)
    (hinf : sumR cost.length (fun k => (mwlimits.getD k (0, 0)).2) <
        PdtArg.getD ps.Pdt ∨
      PdtArg.getD ps.Pdt <
        sumR cost.length (fun k => (mwlimits.getD k (0, 0)).1)) :
    (dispatch ps PdtArg cost mwlimits solveE).2 = none ∧
      (dispatch ps PdtArg cost mwlimits solveE).1.lam = ps.lam ∧
      (dispatch ps PdtArg cost mwlimits solveE).1.Pgg = ps.Pgg ∧
      (dispatch ps PdtArg cost mwlimits solveE).1.busdata = ps.busdata ∧
      (dispatch ps PdtArg cost mwlimits solveE).1.Pg = ps.Pg ∧
      (dispatch ps PdtArg cost mwlimits solveE).1.kb = ps.kb ∧
      (dispatch ps PdtArg cost mwlimits solveE).1.Pdt = ps.Pdt ∧
      (dispatch ps PdtArg cost mwlimits solveE).1.basemva = ps.basemva ∧
      (dispatch ps PdtArg cost mwlimits solveE).1.B =
        some (ps.B.getD (zerosM cost.length)) ∧
      (dispatch ps PdtArg cost mwlimits solveE).1.B0 =
        some (ps.B0.getD (zerosV cost.length)) ∧
      (dispatch ps PdtArg cost mwlimits solveE).1.B00 =
        some (ps.B00.getD 0) := by
  have hgate : dispatch ps PdtArg cost mwlimits solveE =
      ({ ps with
        B := some (ps.B.getD (zerosM cost.length))
        B0 := some (ps.B0.getD (zerosV cost.length))
        B00 := some (ps.B00.getD 0) }, none) := by
    by_cases h1 : sumR cost.length (fun k => (mwlimits.getD k (0, 0)).2) <
        PdtArg.getD ps.Pdt
    · simp only [dispatch]
      rw [if_pos h1]
    · have h2 : PdtArg.getD ps.Pdt <
          sumR cost.length (fun k => (mwlimits.getD k (0, 0)).1) := by
        rcases hinf with h | h
        · exact absurd h h1
        · exact h
      simp only [dispatch]
      rw [if_neg h1, if_pos h2]
  rw [hgate]
  exact ⟨rfl, rfl, rfl, rfl, rfl, rfl, rfl, rfl, rfl, rfl, rfl⟩

/-- The zero dispatcher solver: the exact `np.linalg.pinv` fallback result
for the singular all-zero `E` systems arising in the runs below. -/
def solveD0 : (ℕ → ℕ → ℚ) → (ℕ → ℚ) → ℕ → ℚ := fun _ _ => fun _ => 0

/-- The identity dispatcher solver: the exact solution of the `E = [[1]]`
systems arising in the run below. -/
def solveDI : (ℕ → ℕ → ℚ) → (ℕ → ℚ) → ℕ → ℚ := fun _ d => d

/-- A fresh persistent state: no loss coefficients, no warm lambda, no
stored schedule. -/
def psC7 : PState ℚ :=
  ⟨100, 0, [], fun _ => 0, 0, fun _ => 0, none, none, none, none, none⟩

/-- Persistent state with `B` unset but `B0`, `B00`, `lambda` set, used to
exhibit the infeasible-path mutation of `B`. -/
def psC6 : PState ℚ :=
  ⟨100, 0, [⟨1, 1, 1, 0, 0, 0, 0, 0, 0, 0, 0⟩], fun _ => 0, 1, fun _ => 0,
    none, some [0], some 0, some 1, none⟩

/-- Persistent state with all coefficients set, for the C6 witness. -/
def psC6w : PState ℚ :=
  ⟨100, 0, [⟨1, 1, 1, 0, 0, 0, 0, 0, 0, 0, 0⟩], fun _ => 0, 1, fun _ => 0,
    some [[2]], some [3], some 4, some 5, some [6]⟩

/-- Cost table with a single generator, `gamma = 1`. -/
def costC6 : List (ℚ × ℚ × ℚ) := [(0, 1, 1)]

/-- Limits `Pmin = 0`, `Pmax = 50`. -/
def limsC6 : List (ℚ × ℚ) := [(0, 50)]

/-- Cost table with a single zero-gamma generator. -/
def costC7a : List (ℚ × ℚ × ℚ) := [(0, 1, 0)]

/-- Limits `Pmin = 4`, `Pmax = 6`. -/
def limsC7a : List (ℚ × ℚ) := [(4, 6)]

/-- Limits `Pmin = 0`, `Pmax = 10`. -/
def limsC7w : List (ℚ × ℚ) := [(0, 10)]

/-- Claim C6 counterexample: an infeasible call (demand 100 above the
total `Pmax = 50`) returns the diagnostic (`none`) without iterating, but
it does NOT leave all persistent state unchanged: `B` was `None` before
the call and is a zero matrix afterwards (and likewise `B0`/`B00` would be
defaulted), because the coefficient defaulting runs before the
feasibility gate. -/
theorem dispatch_infeasible_cx :
    psC6.B = none ∧
      sumR 1 (fun k => (limsC6.getD k (0, 0)).2) < 100 ∧
      (dispatch psC6 (some 100) costC6 limsC6 solveD0).2 = none ∧
      (dispatch psC6 (some 100) costC6 limsC6 solveD0).1.B = some [[0]] := by
  with_unfolding_all decide

/-- Witness for the amended claim C6: on an infeasible call with all
coefficients already set, nothing changes except the `B`-family being
re-wrapped as `some` of its previous value. -/
theorem dispatch_infeasible_witness :
    (sumR costC6.length (fun k => (limsC6.getD k (0, 0)).2) <
        (some (100 : ℚ)).getD psC6w.Pdt ∨
      (some (100 : ℚ)).getD psC6w.Pdt <
        sumR costC6.length (fun k => (limsC6.getD k (0, 0)).1)) ∧
      (dispatch psC6w (some 100) costC6 limsC6 solveD0).2 = none ∧
      (dispatch psC6w (some 100) costC6 limsC6 solveD0).1.lam = psC6w.lam ∧
      (dispatch psC6w (some 100) costC6 limsC6 solveD0).1.Pgg = psC6w.Pgg ∧
      (dispatch psC6w (some 100) costC6 limsC6 solveD0).1.busdata =
        psC6w.busdata ∧
      (dispatch psC6w (some 100) costC6 limsC6 solveD0).1.B =
        some (psC6w.B.getD (zerosM costC6.length)) :=
  ⟨by with_unfolding_all decide,
    (dispatch_infeasible psC6w (some 100) costC6 limsC6 solveD0
      (by with_unfolding_all decide)).1,
    (dispatch_infeasible psC6w (some 100) costC6 limsC6 solveD0
      (by with_unfolding_all decide)).2.1,
    (dispatch_infeasible psC6w (some 100) costC6 limsC6 solveD0
      (by with_unfolding_all decide)).2.2.1,
    (dispatch_infeasible psC6w (some 100) costC6 limsC6 solveD0
      (by with_unfolding_all decide)).2.2.2.1,
    (dispatch_infeasible psC6w (some 100) costC6 limsC6 solveD0
      (by with_unfolding_all decide)).2.2.2.2.2.2.2.2.1⟩

/-- Claim C7 counterexample: a feasible call (`Pmin = 4 <= Pdt = 5 <=
Pmax = 6`) with a zero-gamma cost row makes every `E` system singular
(pseudo-inverse gives `PP = 0`), the residual stays 5, the clamp guard
`|DelP| <= 0.001` never fires, and the run terminates by exhausting the
200-iteration cap with generator 0 still active (`wgt = 1`) at
`Pgg = 0 < Pmin = 4`: a terminating feasible dispatch can return an
active generator outside its limits. -/
theorem dispatch_limits_cx :
    ((dispatch psC7 (some 5) costC7a limsC7a solveD0).2).map
        (fun r => (r.Pgg, r.wgt, r.iterp)) = some ([0], [1], 200) ∧
      sumR 1 (fun k => (limsC7a.getD k (0, 0)).1) ≤ 5 ∧
      (5 : ℚ) ≤ sumR 1 (fun k => (limsC7a.getD k (0, 0)).2) ∧
      ¬((4 : ℚ) ≤ 0) := by
  with_unfolding_all decide

/-- The result of the converged one-generator dispatch run used as the C7
witness. -/
def resC7w : DRes ℚ := ⟨[0], 1, 0, [1], 0, 1⟩

/-- Witness for the amended claim C7 at a concrete converged run. -/
theorem dispatch_limits_witness :
    (dispatch psC7 (some 0) costC6 limsC7w solveDI).2 = some resC7w ∧
      |resC7w.DelP| < 1/10000 ∧ resC7w.wgt.getD 0 0 = 1 ∧
      ((limsC7w.getD 0 (0, 0)).1 ≤ resC7w.Pgg.getD 0 0 ∧
        resC7w.Pgg.getD 0 0 ≤ (limsC7w.getD 0 (0, 0)).2) := by
  have hE : (dispatch psC7 (some 0) costC6 limsC7w solveDI).2 =
      some resC7w := by
    with_unfolding_all decide
  exact ⟨hE, by with_unfolding_all decide, by with_unfolding_all decide,
    dispatch_limits psC7 (some 0) costC6 limsC7w solveDI resC7w hE
      (by with_unfolding_all decide) 0 (by decide)
      (by with_unfolding_all decide)⟩

/-! ## Loss coefficients (`bloss`)

`Zbus = np.linalg.inv(self.Ybus)` is abstracted: the embedding takes the
inverse as an argument, and the theorems certify it with an explicit
`Ybus * Zbus = Zbus * Ybus = I` hypothesis. -/

/-- The converged-case state `bloss` reads. -/
structure BState (K : Type) where
  nbus : ℕ
  basemva : K
  kb : ℕ → ℕ
  V : ℕ → CC K
  Pd : ℕ → K
  Qd : ℕ → K
  Pg : ℕ → K
  Qg : ℕ → K
  Qsh : ℕ → K

/-- Sum of `f 0 + ... + f (n-1)` over the complex pairs. -/
def sumCR (n : ℕ) (f : ℕ → CC K) : CC K := sumC ((List.range n).map f)

/-- Load-current injections `I = -1/basemva * (Pd - jQd) / conj(V)`. -/
def Ivec (st : BState K) (k : ℕ) : CC K :=
  CC.ofK (-1 / st.basemva) * (⟨st.Pd k, -st.Qd k⟩ : CC K) / CC.conj (st.V k)

/-- `ID = sum(I)`. -/
def IDv (st : BState K) : CC K := sumCR st.nbus (Ivec st)

/-- The slack index `ks` (the last bus with `kb = 1`, starting from 0). -/
def ksOf (st : BState K) : ℕ :=
  (List.range st.nbus).foldl (fun a k => if st.kb k = 1 then k else a) 0

/-- `ngg` = number of generator-class buses (`kb != 0`). -/
def nggOf (st : BState K) : ℕ :=
  ((List.range st.nbus).filter (fun k => st.kb k ≠ 0)).length

/-- Distribution factors `d1 = I / ID`. -/
def d1v (st : BState K) (k : ℕ) : CC K := Ivec st k / IDv st

/-- `DD = sum(d1 * Zbus[ks, :])`. -/
def DDv (st : BState K) (Zbus : ℕ → ℕ → CC K) : CC K :=
  sumCR st.nbus (fun k => d1v st k * Zbus (ksOf st) k)

/-- The generator buses in bus order. -/
def genList (st : BState K) : List ℕ :=
  (List.range st.nbus).filter (fun k => st.kb k ≠ 0)

/-- `t1[j] = Zbus[ks, g_j] / DD`. -/
def t1v (st : BState K) (Zbus : ℕ → ℕ → CC K) (j : ℕ) : CC K :=
  Zbus (ksOf st) ((genList st).getD j 0) / DDv st Zbus

/-- Ordinal of a generator bus among the generators (the `kg` counter). -/
def genOrd (st : BState K) (k : ℕ) : ℕ :=
  ((List.range k).filter (fun i => st.kb i ≠ 0)).length

/-- The selector block `C1g` (one-hot generator columns). -/
def C1gF (st : BState K) (k j : ℕ) : CC K :=
  if st.kb k ≠ 0 ∧ j = genOrd st k then 1 else 0

/-- `C1 = hstack(C1g, d1)`, an `nbus x (ngg+1)` matrix. -/
def C1F (st : BState K) (k j : ℕ) : CC K :=
  if j < nggOf st then C1gF st k j else d1v st k

/-- `C2 = hstack(vstack(I, -t1^T), vstack(0, -t1[0]))`, `(ngg+1) square`. -/
def C2F (st : BState K) (Zbus : ℕ → ℕ → CC K) (i j : ℕ) : CC K :=
  if j < nggOf st then
    (if i < nggOf st then (if i = j then 1 else 0) else -t1v st Zbus j)
  else (if i < nggOf st then 0 else -t1v st Zbus 0)

/-- `C = C1 @ C2`. -/
def CF (st : BState K) (Zbus : ℕ → ℕ → CC K) (k j : ℕ) : CC K :=
  sumCR (nggOf st + 1) (fun i => C1F st k i * C2F st Zbus i j)

/-- The diagonal scaling `alpha`: per generator
`(1 - j (Qg + Qsh)/Pg) / conj(V)` (with the `Pg > 1e-6` guard), and
`-V[ks]/Zbus[ks,ks]` in the last slot. -/
def alv (st : BState K) (Zbus : ℕ → ℕ → CC K) (j : ℕ) : CC K :=
  if j < nggOf st then
    let k := (genList st).getD j 0
    if 1/1000000 < st.Pg k then
      (⟨1, -((st.Qg k + st.Qsh k) / st.Pg k)⟩ : CC K) / CC.conj (st.V k)
    else 1 / CC.conj (st.V k)
  else -st.V (ksOf st) / Zbus (ksOf st) (ksOf st)

/-- `T = alph @ conj(C.T) @ real(Zbus) @ conj(C) @ conj(alph)`. -/
def TF (st : BState K) (Zbus : ℕ → ℕ → CC K) (p q : ℕ) : CC K :=
  alv st Zbus p *
    sumCR st.nbus (fun k2 =>
      sumCR st.nbus (fun k => CC.conj (CF st Zbus k p) *
        CC.ofK ((Zbus k k2).re)) * CC.conj (CF st Zbus k2 q)) *
    CC.conj (alv st Zbus q)

/-- `BB = 0.5 * (T + conj(T))`. -/
def BBF (st : BState K) (Zbus : ℕ → ℕ → CC K) (p q : ℕ) : CC K :=
  CC.ofK (1/2) * (TF st Zbus p q + CC.conj (TF st Zbus p q))

/-- `B[k,m] = real(BB[k,m])` for the generator block. -/
def blossB (st : BState K) (Zbus : ℕ → ℕ → CC K) (k mm : ℕ) : K :=
  (BBF st Zbus k mm).re

/-- `B0[k] = 2 real(BB[ngg,k])`. -/
def blossB0 (st : BState K) (Zbus : ℕ → ℕ → CC K) (k : ℕ) : K :=
  2 * (BBF st Zbus (nggOf st) k).re

/-- `B00 = real(BB[ngg,ngg])`. -/
def blossB00 (st : BState K) (Zbus : ℕ → ℕ → CC K) : K :=
  (BBF st Zbus (nggOf st) (nggOf st)).re

/-- Complex matrix product of dimension `n`. -/
def matMulN (n : ℕ) (A B : ℕ → ℕ → CC K) (i j : ℕ) : CC K :=
  sumCR n (fun k => A i k * B k j)

/-- `B` is the exact inverse of `A` on the leading `n x n` block. -/
@[reducible] def isInverse (n : ℕ) (A B : ℕ → ℕ → CC K) : Prop :=
  ∀ i, i < n → ∀ j, j < n →
    matMulN n A B i j = (if i = j then 1 else 0) ∧
      matMulN n B A i j = (if i = j then 1 else 0)

/-- The computed complex power injection `S_n = V_n conj((Ybus V)_n)`. -/
def Scomp (st : BState K) (Yb : ℕ → ℕ → CC K) (n : ℕ) : CC K :=
  st.V n * CC.conj (sumCR st.nbus (fun k => Yb n k * st.V k))

/-- A converged base case in the sense of the spec: exactly one slack bus,
every non-slack bus meets its scheduled active power within `accuracy`,
and every PQ bus additionally meets its scheduled reactive power. -/
@[reducible] def ConvergedBase (st : BState K) (Yb : ℕ → ℕ → CC K) (accuracy : K) :
    Prop :=
  ((List.range st.nbus).filter (fun k => st.kb k = 1)).length = 1 ∧
    ∀ n, n < st.nbus →
      (st.kb n ≠ 1 →
        |(st.Pg n - st.Pd n) / st.basemva - (Scomp st Yb n).re| < accuracy) ∧
      (st.kb n = 0 →
        |(st.Qg n - st.Qd n + st.Qsh n) / st.basemva - (Scomp st Yb n).im| <
          accuracy)

@[simp] theorem CC.mul_re (z w : CC K) :
    (z * w).re = z.re * w.re - z.im * w.im := rfl

@[simp] theorem CC.mul_im (z w : CC K) :
    (z * w).im = z.re * w.im + z.im * w.re := rfl

@[simp] theorem CC.ofK_re (x : K) : (CC.ofK x).re = x := rfl

@[simp] theorem CC.ofK_im (x : K) : (CC.ofK x).im = 0 := rfl

/-- Three-branch line data for the loss-coefficient case: branches 1-2
(pure reactance, half-line charging 1/2 each side via Bc = 1) and 2-3
(R = X = 1). -/
def line8 : List (Branch ℚ) := [⟨1,2,1,0,1,1⟩, ⟨2,3,1,1,0,1⟩]

/-- Its bus admittance matrix (3 buses). -/
def Y8 : ℕ → ℕ → CC ℚ := lfybus line8

/-- A converged voltage profile for `line8`. -/
def V8 : ℕ → CC ℚ := fun k => [(⟨1,0⟩ : CC ℚ), ⟨9/10,-1/10⟩, ⟨4/5,-1/5⟩].getD k 0

/-- The exact inverse of `Y8`, certified by `isInverse` in the theorem. -/
def Zbus8 : ℕ → ℕ → CC ℚ := fun i j =>
  [[(⟨1/5,-3/5⟩ : CC ℚ), ⟨-1/5,-2/5⟩, ⟨-1/5,-2/5⟩],
   [⟨-1/5,-2/5⟩, ⟨1/5,-3/5⟩, ⟨1/5,-3/5⟩],
   [⟨-1/5,-2/5⟩, ⟨1/5,-3/5⟩, ⟨6/5,2/5⟩]].getD i [] |>.getD j 0

/-- The converged base case itself: bus 1 slack (generating 10 MW),
bus 2 PV (generating 1 MW), bus 3 PQ load (8 MW, -2 Mvar); the schedule
matches the power-flow equations exactly (mismatch 0). -/
def st8 : BState ℚ :=
  ⟨3, 100, (fun k => [1,2,0].getD k 0), V8,
    (fun k => [0,0,8].getD k 0),
    (fun k => [0,0,-2].getD k 0),
    (fun k => [10,1,0].getD k 0),
    (fun k => [-110,-73,0].getD k 0),
    fun _ => 0⟩

/-- **C8** is false as stated: in a converged base case (exactly one
slack bus and zero active/reactive mismatch at every non-slack bus, so
well within any positive accuracy), with the exact `Zbus` inverse and no
division by zero anywhere (`ID`, `DD`, `Zbus[ks,ks]` and every voltage
nonzero, both generators above the `1e-6` active-power guard), the
produced loss matrix has `B[0,1] = 920` but `B[1,0] = 860`: `B` is not
symmetric (and hence not a positive semi-definite matrix in the usual
sense). -/
theorem bloss_symmetry_cx :
    isInverse 3 Y8 Zbus8 ∧
    ConvergedBase st8 Y8 (1/1000) ∧
    IDv st8 ≠ 0 ∧ DDv st8 Zbus8 ≠ 0 ∧
    Zbus8 (ksOf st8) (ksOf st8) ≠ 0 ∧
    (∀ k, k < 3 → st8.V k ≠ 0) ∧
    (1/1000000 : ℚ) < st8.Pg 0 ∧ (1/1000000 : ℚ) < st8.Pg 1 ∧
    blossB st8 Zbus8 0 1 = 920 ∧ blossB st8 Zbus8 1 0 = 860 := by
  with_unfolding_all decide

/-- **C8** (amended): the `0.5 * (T + conj(T))` step in `bloss` is a
complex conjugation, not a transposition: it only cancels the imaginary
part, so each stored coefficient `B[k,m]` is exactly the real part of
the un-symmetrized product `T[k,m]` and the intermediate `BB` is real,
but no relation between `B[k,m]` and `B[m,k]` is enforced. -/
theorem bloss_real_part (st : BState K) (Zbus : ℕ → ℕ → CC K)
    (k mm : ℕ) :
    blossB st Zbus k mm = (TF st Zbus k mm).re ∧
      (BBF st Zbus k mm).im = 0 := by
  constructor
  · show (BBF st Zbus k mm).re = _
    simp [BBF]
    ring
  · simp [BBF]

end PowerSystem
